import Mathlib

/-!
Verification model of the posthog session-recording core (codec, chunk
encoder, reassembler, query-engine pagination) and of the
`ExportedAsset` model from `posthog/models/exported_asset.py`.

The session-recording core itself is not present in this source tree;
only its test suite
(`posthog/queries/session_recordings/test/test_session_recording.py`)
is.  Following the design document, the components below are therefore
modelled from the spec: `Codec` (serialize, compress with a
deflate-family run-length scheme carrying the container's integrity
footer, text-encode), `ChunkEncoder` (partition a batch, encode each
group, split into bounded chunks), `Reassembler` (group chunks, verify
completeness, concatenate, decode) and the query engine's `page`
operation.  Text symbols are modelled as natural numbers; the
compressed container carries a length header and a positional-value
checksum footer playing the role of gzip's ISIZE/CRC32 trailer.
-/

/-- A session-replay snapshot event.  The payload is an opaque tagged
value: a `type` discriminant (`eventType`) plus an opaque nested data
tree (`dataTree`), per the data model in the spec. -/
structure SnapshotEvent where
  teamId : Nat
  distinctId : String
  sessionId : String
  timestamp : Nat
  eventType : Nat
  dataTree : String
deriving DecidableEq, Inhabited

/-- A persisted chunk: one storable, size-bounded slice of a group's
compressed text, tagged with `chunkIndex`/`chunkCount` for ordered
reassembly. -/
structure Chunk where
  teamId : Nat
  distinctId : String
  sessionId : String
  timestamp : Nat
  groupId : Nat
  chunkIndex : Nat
  chunkCount : Nat
  payload : List Nat
deriving DecidableEq, Inhabited

/-! ### Canonical serialization of a batch -/

/-- Length-prefixed character-code encoding of a string field. -/
def strCode (s : String) : List Nat :=
  s.data.length :: s.data.map Char.toNat

/-- Parse one length-prefixed string field, returning the remainder. -/
def parseStr : List Nat → Option (String × List Nat)
  | [] => none
  | n :: rest =>
    if n ≤ rest.length then
      some (⟨(rest.take n).map Char.ofNat⟩, rest.drop n)
    else none

/-- Canonical serialized form of a single event. -/
def serializeEvent (e : SnapshotEvent) : List Nat :=
  e.teamId :: (strCode e.distinctId ++ strCode e.sessionId ++
    (e.timestamp :: e.eventType :: strCode e.dataTree))

/-- Canonical serialized form of an ordered batch. -/
def serializeBatch : List SnapshotEvent → List Nat
  | [] => []
  | e :: es => serializeEvent e ++ serializeBatch es

/-- Fueled parser inverting `serializeBatch`. -/
def parseEvT : Nat → List Nat → Option (List SnapshotEvent)
  | _, [] => some []
  | 0, _ :: _ => none
  | f + 1, t :: rest =>
    match parseStr rest with
    | none => none
    | some (did, r1) =>
      match parseStr r1 with
      | none => none
      | some (sid, r2) =>
        match r2 with
        | ts :: ty :: r3 =>
          match parseStr r3 with
          | none => none
          | some (da, r4) =>
            match parseEvT f r4 with
            | none => none
            | some es => some (⟨t, did, sid, ts, ty, da⟩ :: es)
        | _ => none

/-- Parse a serialized batch (structured-content layer of decode). -/
def parseEvents (l : List Nat) : Option (List SnapshotEvent) :=
  parseEvT l.length l

/-! ### Deflate-family compression layer (run-length scheme) -/

/-- Run-length body encoder: emits `count :: value ::` pairs. -/
def rleGo (x : Nat) (c : Nat) : List Nat → List Nat
  | [] => [c, x]
  | y :: ys => if y = x then rleGo x (c + 1) ys else c :: x :: rleGo y 1 ys

/-- Compress a symbol stream into run-length pairs. -/
def rleEncode : List Nat → List Nat
  | [] => []
  | x :: xs => rleGo x 1 xs

/-- Decompress a run-length stream; `none` on a malformed (odd) body. -/
def rleDecode : List Nat → Option (List Nat)
  | [] => some []
  | _ :: [] => none
  | c :: x :: rest =>
    match rleDecode rest with
    | none => none
    | some l => some (List.replicate c x ++ l)

/-! ### Container frame: length header and checksum footer -/

/-- Largest symbol of a stream (0 for the empty stream). -/
def maxL : List Nat → Nat
  | [] => 0
  | x :: xs => max x (maxL xs)

/-- Positional value of a stream in base `B` (little-endian); the
injective checksum carried by the container footer. -/
def valBase (B : Nat) : List Nat → Nat
  | [] => 0
  | d :: l => d + B * valBase B l

/-- Wrap a compressed body with the container frame:
`length :: body ++ [base, checksum]`. -/
def frameEnc (p : List Nat) : List Nat :=
  p.length :: (p ++ [maxL p + 2, valBase (maxL p + 2) p])

/-- Parse and verify a container frame; `none` on any integrity
violation (wrong length, wrong base, wrong checksum). -/
def frameParse : List Nat → Option (List Nat)
  | [] => none
  | x :: rest =>
    if rest.length = x + 2 then
      if rest.getD x 0 = maxL (rest.take x) + 2 ∧
         rest.getD (x + 1) 0 = valBase (maxL (rest.take x) + 2) (rest.take x)
      then some (rest.take x) else none
    else none

namespace Codec

/-- `Codec.encode`: serialize, compress, wrap in the container frame. -/
def encode (b : List SnapshotEvent) : List Nat :=
  frameEnc (rleEncode (serializeBatch b))

/-- `Codec.decode`: inverse of `encode`; `none` classifies any decode
failure (corrupt frame, corrupt compressed stream, invalid structured
content). -/
def decode (w : List Nat) : Option (List SnapshotEvent) :=
  match frameParse w with
  | none => none
  | some p =>
    match rleDecode p with
    | none => none
    | some zs => parseEvents zs

end Codec

/-! ### Chunk encoder -/

/-- Fueled splitter: cut a stream into consecutive pieces of at most
`max m 1` symbols (`m` is the `max_chunk_payload` configuration). -/
def splitF (m : Nat) : Nat → List Nat → List (List Nat)
  | 0, _ => []
  | _ + 1, [] => []
  | f + 1, x :: xs => (x :: xs.take (m - 1)) :: splitF m f (xs.drop (m - 1))

/-- Split a compressed text into storable pieces of length at most
`max m 1`. -/
def splitPieces (m : Nat) (s : List Nat) : List (List Nat) :=
  splitF m s.length s

/-- Fueled partitioner: cut a batch into consecutive groups of at most
`max bs 1` events (`bs` is the `batch_size` configuration). -/
def partF (bs : Nat) : Nat → List SnapshotEvent → List (List SnapshotEvent)
  | 0, _ => []
  | _ + 1, [] => []
  | f + 1, e :: es => (e :: es.take (bs - 1)) :: partF bs f (es.drop (bs - 1))

/-- Partition an incoming batch into consecutive groups of at most
`max bs 1` events, preserving order. -/
def partitionBatches (bs : Nat) (b : List SnapshotEvent) : List (List SnapshotEvent) :=
  partF bs b.length b

/-- Build the chunk records of one group from its pieces: chunk `i`
carries piece `i`, with `chunkCount` equal to the piece count. -/
def mkChunksOf (tid : Nat) (did sid : String) (ts gid n : Nat)
    (P : List (List Nat)) : List Chunk :=
  P.enum.map (fun it => ⟨tid, did, sid, ts, gid, it.1, n, it.2⟩)

/-- Encode one group: run the codec, split the text, and tag each piece
with the group id, its index, the chunk count and the metadata of the
group's first event (the chunk timestamp is the first event's). -/
def mkChunks (gid mcp : Nat) (g : List SnapshotEvent) : List Chunk :=
  mkChunksOf (g.headD default).teamId (g.headD default).distinctId
    (g.headD default).sessionId (g.headD default).timestamp gid
    (splitPieces mcp (Codec.encode g)).length
    (splitPieces mcp (Codec.encode g))

namespace ChunkEncoder

/-- `ChunkEncoder.encode`: partition the batch into groups, encode each
group, and split into chunks; group `i` receives the fresh group id
`gidBase + i` (group ids are unique per encode invocation). -/
def encode (gidBase bs mcp : Nat) (b : List SnapshotEvent) : List Chunk :=
  ((partitionBatches bs b).enum.map
    (fun ig => mkChunks (gidBase + ig.1) mcp ig.2)).flatten

end ChunkEncoder

/-! ### Reassembler -/

/-- Fueled first-occurrence deduplication of a group-id list. -/
def fsF : Nat → List Nat → List Nat
  | 0, _ => []
  | _ + 1, [] => []
  | f + 1, x :: xs => x :: fsF f (xs.filter (fun y => decide (y ≠ x)))

/-- Group ids in order of first appearance. -/
def firstSeen (l : List Nat) : List Nat := fsF l.length l

/-- The chunk with the given `chunkIndex` in a group, if present. -/
def chunkAt (cs : List Chunk) (i : Nat) : Option Chunk :=
  cs.find? (fun c => decide (c.chunkIndex = i))

/-- A group is complete when every `chunk_index` in
`[0, chunk_count)` is present. -/
def completeB (cs : List Chunk) : Bool :=
  match cs with
  | [] => false
  | c0 :: rest => (List.range c0.chunkCount).all (fun i => (chunkAt (c0 :: rest) i).isSome)

/-- Payloads of chunks `i, i+1, …, i+k-1`, concatenated. -/
def jpF (cs : List Chunk) : Nat → Nat → List Nat
  | _, 0 => []
  | i, k + 1 => ((chunkAt cs i).map Chunk.payload).getD [] ++ jpF cs (i + 1) k

/-- Concatenate the payloads of a group in `chunkIndex` order. -/
def joinedPayload (cs : List Chunk) (n : Nat) : List Nat :=
  jpF cs 0 n

/-- Reassemble one group: verify completeness, concatenate payloads in
index order, decode.  An incomplete group or a failed decode yields
`[]` (the group is skipped, never an error). -/
def decodeGroup (cs : List Chunk) : List SnapshotEvent :=
  match cs with
  | [] => []
  | c0 :: rest =>
    if completeB (c0 :: rest) then
      (Codec.decode (joinedPayload (c0 :: rest) c0.chunkCount)).getD []
    else []

/-- Representative timestamp of a group (its first chunk's). -/
def repTs (cs : List Chunk) : Nat := (cs.headD default).timestamp

/-- Stable ordered insert for the key-based insertion sort. -/
def insertB {α : Type} (key : α → Nat) (a : α) : List α → List α
  | [] => [a]
  | b :: l => if key a ≤ key b then a :: b :: l else b :: insertB key a l

/-- Stable insertion sort by a numeric key. -/
def sortIns {α : Type} (key : α → Nat) : List α → List α
  | [] => []
  | a :: l => insertB key a (sortIns key l)

/-- Partition a chunk collection into its groups, in order of first
appearance of each group id. -/
def groupsOf (cs : List Chunk) : List (List Chunk) :=
  (firstSeen (cs.map Chunk.groupId)).map
    (fun g => cs.filter (fun c => decide (c.groupId = g)))

/-- Order groups by representative timestamp (stable). -/
def sortGroups (gs : List (List Chunk)) : List (List Chunk) :=
  sortIns repTs gs

/-- `Reassembler`: group chunks by group id, order groups by
representative timestamp, reassemble each group and concatenate the
recovered batches (within-group arrival order is preserved). -/
def Reassembler (cs : List Chunk) : List SnapshotEvent :=
  ((sortGroups (groupsOf cs)).map decodeGroup).flatten

/-! ### Query engine -/

/-- Display projection of a recovered event: `timestamp` and `type`. -/
structure DisplayRecord where
  timestamp : Nat
  type : Nat
deriving DecidableEq, Inhabited

/-- A continuation cursor: the re-serialized query parameters of the
next page. -/
structure Continuation where
  offset : Nat
  limit : Nat
deriving DecidableEq, Inhabited

/-- A page of reconstructed events plus an optional continuation. -/
structure Page where
  snapshots : List DisplayRecord
  next : Option Continuation
deriving DecidableEq, Inhabited

/-- Project a recovered event to its display subset. -/
def displayOf (e : SnapshotEvent) : DisplayRecord :=
  ⟨e.timestamp, e.eventType⟩

/-- The committed rows of one session, ordered by timestamp ascending
(stable). -/
def sessionRows (store : List Chunk) (tid : Nat) (sid : String) : List Chunk :=
  sortIns Chunk.timestamp
    (store.filter (fun c => decide (c.teamId = tid ∧ c.sessionId = sid)))

/-- All group ids of a session, in timestamp order of first row. -/
def sessionGids (store : List Chunk) (tid : Nat) (sid : String) : List Nat :=
  firstSeen ((sessionRows store tid sid).map Chunk.groupId)

/-- The HTTP layer treats a falsy (`0`) limit as absent. -/
def effLimit : Option Nat → Option Nat
  | none => none
  | some l => if l = 0 then none else some l

/-- Group ids of the requested page: at most `limit` distinct groups
starting after `offset` groups. -/
def pagedGids (store : List Chunk) (tid : Nat) (sid : String)
    (limit : Option Nat) (offset : Nat) : List Nat :=
  match effLimit limit with
  | none => (sessionGids store tid sid).drop offset
  | some l => ((sessionGids store tid sid).drop offset).take l

/-- Store-adapter read: the raw chunk rows of the paged groups. -/
def readRows (store : List Chunk) (tid : Nat) (sid : String)
    (limit : Option Nat) (offset : Nat) : List Chunk :=
  (sessionRows store tid sid).filter
    (fun c => decide (c.groupId ∈ pagedGids store tid sid limit offset))

namespace QueryEngine

/-- `QueryEngine.page`: read the paged groups' rows, reassemble,
project to display records; `next` encodes `offset + limit, limit`
exactly when a full page of groups was retrieved. -/
def page (store : List Chunk) (tid : Nat) (sid : String)
    (limit : Option Nat) (offset : Nat) : Page :=
  ⟨(Reassembler (readRows store tid sid limit offset)).map displayOf,
    match effLimit limit with
    | none => none
    | some l =>
      if (pagedGids store tid sid limit offset).length = l then
        some ⟨offset + l, l⟩
      else none⟩

end QueryEngine

/-- Number of pages needed to cover all groups at page size `l`. -/
def pageCount (store : List Chunk) (tid : Nat) (sid : String) (l : Nat) : Nat :=
  ((sessionGids store tid sid).length + l - 1) / l

/-! ### Corruption of stored chunks -/

/-- `t'` is a truncation of `t`: a strictly shorter prefix. -/
def TruncatedFrom (t t' : List Nat) : Prop :=
  ∃ k, k < t.length ∧ t' = t.take k

/-- `t'` is `t` with a single symbol flipped. -/
def FlippedFrom (t t' : List Nat) : Prop :=
  ∃ q v, q < t.length ∧ v ≠ t.getD q 0 ∧ t' = t.set q v

/-- Replace the payload of the chunk with group id `g` and index `j`. -/
def corruptAt (g j : Nat) (t' : List Nat) (cs : List Chunk) : List Chunk :=
  cs.map (fun c =>
    if c.groupId = g ∧ c.chunkIndex = j then
      { c with payload := t' }
    else c)

/-! ### ExportedAsset (posthog/models/exported_asset.py) -/

/-- The dashboard relation: only its `name` matters to `filename`. -/
structure Dashboard where
  name : Option String
deriving DecidableEq

/-- The insight relation: `name` and `derived_name` feed `filename`. -/
structure Insight where
  name : Option String
  derived_name : Option String
deriving DecidableEq

/-- `ExportedAsset` model fields used by `has_content` and
`filename`.  `content` is the binary field, `content_location` the
object-storage path, `export_context` the JSON context (modelled as an
association list). -/
structure ExportedAsset where
  export_format : String
  content : Option (List Nat)
  created_by : Option Nat
  export_context : Option (List (String × String))
  content_location : Option String
  dashboard : Option Dashboard
  insight : Option Insight
deriving DecidableEq

def strFilenameKey : String := "filename"
def strExport : String := "export"
def strDash : String := "-"
def strDot : String := "."
def strPyNone : String := "None"
def strPng : String := "image/png"
def strPdf : String := "application/pdf"
def strCsv : String := "text/csv"
def strPngE : String := "png"
def strPdfE : String := "pdf"
def strCsvE : String := "csv"

/-- Modelled from the spec: `django.utils.text.slugify` is an external
collaborator outside this repository; modelled as a concrete string
normalization (lowercase, spaces to hyphens).  No verified claim
depends on its exact behavior. -/
def slugify (s : String) : String :=
  ⟨s.data.map (fun c => if c = ' ' then '-' else c.toLower)⟩

/-- Python truthiness of an optional string (`None` and `""` falsy). -/
def pyTruthyStr : Option String → Bool
  | none => false
  | some s => decide (s.data ≠ [])

/-- Python truthiness of the JSON context (`None` and `{}` falsy). -/
def ctxTruthy : Option (List (String × String)) → Bool
  | none => false
  | some l => decide (l ≠ [])

/-- `self.export_context.get(key)`. -/
def ctxGet (ctx : Option (List (String × String))) (k : String) : Option String :=
  match ctx with
  | none => none
  | some l => l.lookup k

/-- Python `str(...)` of an optional string (`None` prints as it does
under `str`). -/
def pyStrOpt : Option String → String
  | none => strPyNone
  | some s => s

/-- Python `x or y` on optional strings. -/
def pyOrStr (x y : Option String) : Option String :=
  match x with
  | some s => if s.data ≠ [] then some s else y
  | none => y

/-- Split a character list on a separator character. -/
def splitCh (c : Char) : List Char → List (List Char)
  | [] => [[]]
  | x :: xs =>
    if x = c then [] :: splitCh c xs
    else
      match splitCh c xs with
      | [] => [[x]]
      | p :: ps => (x :: p) :: ps

/-- `export_format.split("/")[1]`. -/
def extOf (fmt : String) : String :=
  ⟨(splitCh '/' fmt.data).getD 1 []⟩

/-- `ExportedAsset.has_content`: true when either the binary content
or the object-storage location is set. -/
def ExportedAsset.has_content (a : ExportedAsset) : Bool :=
  a.content.isSome || a.content_location.isSome

/-- `ExportedAsset.file_ext`. -/
def ExportedAsset.file_ext (a : ExportedAsset) : String :=
  extOf a.export_format

/-- `self.dashboard and self.dashboard.name is not None`. -/
def dashNameSet (a : ExportedAsset) : Bool :=
  match a.dashboard with
  | some d => d.name.isSome
  | none => false

/-- `slugify(self.dashboard.name)` argument. -/
def dashName (a : ExportedAsset) : String :=
  match a.dashboard with
  | some d => pyStrOpt d.name
  | none => strPyNone

/-- `self.insight.name or self.insight.derived_name` as fed to
`slugify`. -/
def insightSlugArg (a : ExportedAsset) : String :=
  match a.insight with
  | some i => pyStrOpt (pyOrStr i.name i.derived_name)
  | none => strPyNone

/-- `ExportedAsset.filename`, branch for branch from the source. -/
def ExportedAsset.filename (a : ExportedAsset) : String :=
  (if ctxTruthy a.export_context &&
      pyTruthyStr (ctxGet a.export_context strFilenameKey) then
    slugify (pyStrOpt (ctxGet a.export_context strFilenameKey))
  else if dashNameSet a then
    strExport ++ strDash ++ slugify (dashName a)
  else if a.insight.isSome then
    strExport ++ strDash ++ slugify (insightSlugArg a)
  else strExport) ++ (strDot ++ extOf a.export_format)

/-! ### Concrete scenario data -/

def strU : String := "u"
def str1 : String := "1"
def str2 : String := "2"
def str7 : String := "7"
def strX : String := "x"
def strD : String := "d"
def strEmpty : String := ""

/-- Session-"1" event of Scenario A at the given timestamp. -/
def evA (ts : Nat) : SnapshotEvent := ⟨1, strU, str1, ts, 2, strEmpty⟩

/-- The unrelated session-"2" event of Scenario A. -/
def evB (ts : Nat) : SnapshotEvent := ⟨1, strU, str2, ts, 2, strEmpty⟩

/-- Scenario A store: three session-"1" snapshots and one unrelated
session-"2" snapshot, each written as its own group. -/
def storeA : List Chunk :=
  ChunkEncoder.encode 0 1 50 [evA 1600000000] ++
  ChunkEncoder.encode 1 1 50 [evA 1600000010] ++
  ChunkEncoder.encode 2 1 50 [evB 1600000020] ++
  ChunkEncoder.encode 3 1 50 [evA 1600000030]

/-- Scenario C event (session "7", shared base time). -/
def evC : SnapshotEvent := ⟨1, strU, str7, 1600000000, 2, strD⟩

/-- Scenario C store: 11 groups for session "7", each encoding 2
events. -/
def storeC : List Chunk :=
  ((List.range 11).map (fun i => ChunkEncoder.encode i 2 50 [evC, evC])).flatten

/-- A store whose only session is "1" (for empty-session queries). -/
def storeD : List Chunk := ChunkEncoder.encode 0 1 50 [evA 1600000000]

/-- Three single-event groups of session "1" (pagination witness). -/
def storeE : List Chunk :=
  ChunkEncoder.encode 0 1 50 [evA 1600000000] ++
  ChunkEncoder.encode 1 1 50 [evA 1600000010] ++
  ChunkEncoder.encode 2 1 50 [evA 1600000020]

def evU0 : SnapshotEvent := ⟨1, strU, str1, 0, 2, strEmpty⟩
def evU1 : SnapshotEvent := ⟨1, strU, str1, 1, 2, strEmpty⟩

/-- A batch whose events are not in timestamp order. -/
def batchUnsorted : List SnapshotEvent := [evU1, evU0]

def evT2 : SnapshotEvent := ⟨1, strU, str1, 5, 2, strEmpty⟩
def evT3 : SnapshotEvent := ⟨1, strU, str1, 5, 3, strEmpty⟩

/-- A stored page holding one single-chunk group encoding `[evT2]`. -/
def storeF : List Chunk := ChunkEncoder.encode 0 2 1000 [evT2]

/-- `storeF` with the bytes of its only chunk's payload flipped into
the (equal-length) valid encoding of the different batch `[evT3]`. -/
def storeFcorrupt : List Chunk := corruptAt 0 0 (Codec.encode [evT3]) storeF

/-- Two single-event groups of session "1" (corruption witness). -/
def storeG : List Chunk :=
  ChunkEncoder.encode 0 1 50 [evA 1600000000] ++
  ChunkEncoder.encode 1 1 50 [evA 1600000010]

/-- A CSV export with no context, dashboard or insight. -/
def assetW : ExportedAsset := ⟨strCsv, none, none, none, none, none, none⟩

/-! ### Codec round-trip lemmas -/

theorem parseStr_strCode (s : String) (r : List Nat) :
    parseStr (strCode s ++ r) = some (s, r) := by
  unfold strCode parseStr
  simp only [List.cons_append, List.length_append, List.length_map]
  rw [if_pos (by omega)]
  have ht : (s.data.map Char.toNat).length = s.data.length := by
    simp
  rw [← ht, List.take_left, List.drop_left, List.map_map]
  have hid : s.data.map (Char.ofNat ∘ Char.toNat) = s.data := by
    have : (Char.ofNat ∘ Char.toNat) = id := by
      funext c
      exact Char.ofNat_toNat c
    rw [this, List.map_id]
  rw [hid]

theorem serializeEvent_length_pos (e : SnapshotEvent) :
    1 ≤ (serializeEvent e).length := by
  unfold serializeEvent
  simp

theorem parseEvT_serializeBatch :
    ∀ (b : List SnapshotEvent) (f : Nat),
      (serializeBatch b).length ≤ f →
      parseEvT f (serializeBatch b) = some b := by
  intro b
  induction b with
  | nil =>
    intro f _
    cases f <;> rfl
  | cons e es ih =>
    intro f hf
    have hb : serializeBatch (e :: es) = serializeEvent e ++ serializeBatch es := rfl
    have hpos : 1 ≤ (serializeBatch (e :: es)).length := by
      rw [hb, List.length_append]
      have := serializeEvent_length_pos e
      omega
    cases f with
    | zero => omega
    | succ f2 =>
      have hrest : (serializeBatch es).length ≤ f2 := by
        rw [hb, List.length_append] at hf
        have := serializeEvent_length_pos e
        omega
      rw [hb]
      show parseEvT (f2 + 1)
        ((e.teamId :: (strCode e.distinctId ++ strCode e.sessionId ++
          (e.timestamp :: e.eventType :: strCode e.dataTree))) ++ serializeBatch es) = _
      simp only [List.cons_append, List.append_assoc]
      unfold parseEvT
      simp only [parseStr_strCode, List.cons_append]
      show (match parseEvT f2 (serializeBatch es) with
        | none => none
        | some es2 =>
          some ((⟨e.teamId, e.distinctId, e.sessionId, e.timestamp,
            e.eventType, e.dataTree⟩ : SnapshotEvent) :: es2)) = some (e :: es)
      rw [ih f2 hrest]

theorem parseEvents_serializeBatch (b : List SnapshotEvent) :
    parseEvents (serializeBatch b) = some b :=
  parseEvT_serializeBatch b _ (Nat.le_refl _)

theorem rleGo_decode :
    ∀ (l : List Nat) (x c : Nat),
      rleDecode (rleGo x c l) = some (List.replicate c x ++ l) := by
  intro l
  induction l with
  | nil =>
    intro x c
    simp [rleGo, rleDecode]
  | cons y ys ih =>
    intro x c
    unfold rleGo
    by_cases h : y = x
    · rw [if_pos h, ih x (c + 1), h]
      rw [List.replicate_succ', List.append_assoc]
      rfl
    · rw [if_neg h]
      unfold rleDecode
      rw [ih y 1]
      rfl

theorem rleDecode_rleEncode (l : List Nat) :
    rleDecode (rleEncode l) = some l := by
  cases l with
  | nil => rfl
  | cons x xs =>
    unfold rleEncode
    rw [rleGo_decode]
    rfl

theorem rleGo_head :
    ∀ (l : List Nat) (x c : Nat), ∃ d r, rleGo x c l = d :: r ∧ c ≤ d := by
  intro l
  induction l with
  | nil =>
    intro x c
    exact ⟨c, [x], rfl, Nat.le_refl c⟩
  | cons y ys ih =>
    intro x c
    unfold rleGo
    by_cases h : y = x
    · rw [if_pos h]
      obtain ⟨d, r, hdr, hcd⟩ := ih x (c + 1)
      exact ⟨d, r, hdr, by omega⟩
    · rw [if_neg h]
      exact ⟨c, x :: rleGo y 1 ys, rfl, Nat.le_refl c⟩

/-- The compressed body of a nonempty stream starts with a positive
run count. -/
theorem rleEncode_head (l : List Nat) :
    l = [] ∨ ∃ d r, rleEncode l = d :: r ∧ 1 ≤ d := by
  cases l with
  | nil => exact Or.inl rfl
  | cons x xs =>
    refine Or.inr ?_
    obtain ⟨d, r, hdr, hcd⟩ := rleGo_head xs x 1
    exact ⟨d, r, hdr, hcd⟩

theorem le_maxL {d : Nat} {p : List Nat} (h : d ∈ p) : d ≤ maxL p := by
  induction p with
  | nil => cases h
  | cons x xs ih =>
    unfold maxL
    rcases List.mem_cons.mp h with h1 | h2
    · omega
    · have := ih h2
      omega

theorem valBase_append (B : Nat) (l1 l2 : List Nat) :
    valBase B (l1 ++ l2) = valBase B l1 + B ^ l1.length * valBase B l2 := by
  induction l1 with
  | nil => simp [valBase]
  | cons d l ih =>
    simp only [List.cons_append, valBase, List.append_eq, ih, List.length_cons]
    ring

theorem valBase_eq_zero {B : Nat} (hB : 0 < B) :
    ∀ {p : List Nat}, valBase B p = 0 → ∀ d ∈ p, d = 0 := by
  intro p
  induction p with
  | nil => intro _ d hd; cases hd
  | cons x xs ih =>
    intro h d hd
    unfold valBase at h
    have hx : x = 0 := by omega
    have hrest : B * valBase B xs = 0 := by omega
    have hxs : valBase B xs = 0 := by
      rcases Nat.mul_eq_zero.mp hrest with h1 | h2
      · omega
      · exact h2
    rcases List.mem_cons.mp hd with h1 | h2
    · rw [h1]; exact hx
    · exact ih hxs d h2

theorem valBase_inj {B : Nat} :
    ∀ {l1 l2 : List Nat}, l1.length = l2.length →
      (∀ d ∈ l1, d < B) → (∀ d ∈ l2, d < B) →
      valBase B l1 = valBase B l2 → l1 = l2 := by
  intro l1
  induction l1 with
  | nil =>
    intro l2 hlen _ _ _
    cases l2 with
    | nil => rfl
    | cons y ys => simp at hlen
  | cons x xs ih =>
    intro l2 hlen h1 h2 hv
    cases l2 with
    | nil => simp at hlen
    | cons y ys =>
      have hxB : x < B := h1 x (List.mem_cons_self x xs)
      have hyB : y < B := h2 y (List.mem_cons_self y ys)
      unfold valBase at hv
      have hmod : x = y := by
        have hx : (x + B * valBase B xs) % B = x := by
          rw [Nat.add_mul_mod_self_left, Nat.mod_eq_of_lt hxB]
        have hy : (y + B * valBase B ys) % B = y := by
          rw [Nat.add_mul_mod_self_left, Nat.mod_eq_of_lt hyB]
        rw [← hx, ← hy, hv]
      have hBpos : 0 < B := by omega
      have htail : valBase B xs = valBase B ys :=
        Nat.eq_of_mul_eq_mul_left hBpos (by omega)
      have hlen2 : xs.length = ys.length := by
        simp only [List.length_cons] at hlen
        omega
      have h1x : ∀ d ∈ xs, d < B := fun d hd => h1 d (List.mem_cons_of_mem x hd)
      have h2y : ∀ d ∈ ys, d < B := fun d hd => h2 d (List.mem_cons_of_mem y hd)
      rw [hmod, ih hlen2 h1x h2y htail]

theorem frameParse_frameEnc (p : List Nat) :
    frameParse (frameEnc p) = some p := by
  unfold frameEnc
  simp only [frameParse]
  have hlen : (p ++ [maxL p + 2, valBase (maxL p + 2) p]).length = p.length + 2 := by
    simp
  rw [if_pos hlen]
  have htake : (p ++ [maxL p + 2, valBase (maxL p + 2) p]).take p.length = p :=
    List.take_left p _
  have hgd1 : (p ++ [maxL p + 2, valBase (maxL p + 2) p]).getD p.length 0 = maxL p + 2 := by
    rw [List.getD_eq_getElem?_getD, List.getElem?_append]
    rw [if_neg (by omega)]
    simp
  have hgd2 : (p ++ [maxL p + 2, valBase (maxL p + 2) p]).getD (p.length + 1) 0 =
      valBase (maxL p + 2) p := by
    rw [List.getD_eq_getElem?_getD, List.getElem?_append]
    rw [if_neg (by omega)]
    simp
  rw [htake, hgd1, hgd2, if_pos ⟨rfl, rfl⟩]

theorem codec_decode_encode (b : List SnapshotEvent) :
    Codec.decode (Codec.encode b) = some b := by
  unfold Codec.encode Codec.decode
  simp only [frameParse_frameEnc, rleDecode_rleEncode, parseEvents_serializeBatch]

/-! ### Splitter and partition lemmas -/

theorem splitF_flatten (m : Nat) :
    ∀ (f : Nat) (s : List Nat), s.length ≤ f → (splitF m f s).flatten = s := by
  intro f
  induction f with
  | zero =>
    intro s hs
    have hnil : s = [] := by
      cases s with
      | nil => rfl
      | cons x xs => simp at hs
    rw [hnil]
    rfl
  | succ f2 ih =>
    intro s hs
    cases s with
    | nil => rfl
    | cons x xs =>
      show ((x :: xs.take (m - 1)) :: splitF m f2 (xs.drop (m - 1))).flatten = x :: xs
      rw [List.flatten_cons]
      rw [ih (xs.drop (m - 1)) (by rw [List.length_drop]; simp at hs; omega)]
      rw [List.cons_append, List.take_append_drop]

theorem splitF_mem_ne_nil (m : Nat) :
    ∀ (f : Nat) (s : List Nat) (p : List Nat), p ∈ splitF m f s → p ≠ [] := by
  intro f
  induction f with
  | zero =>
    intro s p hp
    cases hp
  | succ f2 ih =>
    intro s p hp
    cases s with
    | nil => cases hp
    | cons x xs =>
      rcases List.mem_cons.mp hp with h1 | h2
      · rw [h1]
        simp
      · exact ih _ p h2

theorem splitF_cons (m : Nat) :
    ∀ (f : Nat) (s : List Nat), s ≠ [] → 1 ≤ f →
      ∃ p rest, splitF m f s = p :: rest := by
  intro f s hs hf
  cases f with
  | zero => omega
  | succ f2 =>
    cases s with
    | nil => exact absurd rfl hs
    | cons x xs => exact ⟨x :: xs.take (m - 1), splitF m f2 (xs.drop (m - 1)), rfl⟩

theorem partF_flatten (bs : Nat) :
    ∀ (f : Nat) (l : List SnapshotEvent), l.length ≤ f → (partF bs f l).flatten = l := by
  intro f
  induction f with
  | zero =>
    intro l hl
    have hnil : l = [] := by
      cases l with
      | nil => rfl
      | cons x xs => simp at hl
    rw [hnil]
    rfl
  | succ f2 ih =>
    intro l hl
    cases l with
    | nil => rfl
    | cons e es =>
      show ((e :: es.take (bs - 1)) :: partF bs f2 (es.drop (bs - 1))).flatten = e :: es
      rw [List.flatten_cons]
      rw [ih (es.drop (bs - 1)) (by rw [List.length_drop]; simp at hl; omega)]
      rw [List.cons_append, List.take_append_drop]

theorem partitionBatches_flatten (bs : Nat) (b : List SnapshotEvent) :
    (partitionBatches bs b).flatten = b :=
  partF_flatten bs b.length b (Nat.le_refl _)

theorem partF_mem_ne_nil (bs : Nat) :
    ∀ (f : Nat) (l : List SnapshotEvent) (g : List SnapshotEvent),
      g ∈ partF bs f l → g ≠ [] := by
  intro f
  induction f with
  | zero =>
    intro l g hg
    cases hg
  | succ f2 ih =>
    intro l g hg
    cases l with
    | nil => cases hg
    | cons e es =>
      rcases List.mem_cons.mp hg with h1 | h2
      · rw [h1]
        simp
      · exact ih _ g h2

theorem partF_head_mem (bs : Nat) :
    ∀ (f : Nat) (l : List SnapshotEvent) (g : List SnapshotEvent),
      g ∈ partF bs f l → g.headD default ∈ l := by
  intro f
  induction f with
  | zero =>
    intro l g hg
    cases hg
  | succ f2 ih =>
    intro l g hg
    cases l with
    | nil => cases hg
    | cons e es =>
      rcases List.mem_cons.mp hg with h1 | h2
      · rw [h1]
        exact List.mem_cons_self _ _
      · have := ih _ g h2
        have hsub : es.drop (bs - 1) ⊆ e :: es := by
          intro a ha
          exact List.mem_cons_of_mem e (List.drop_subset _ es ha)
        exact hsub this

theorem partF_heads_pairwise (bs : Nat) :
    ∀ (f : Nat) (l : List SnapshotEvent),
      List.Pairwise (fun e1 e2 => e1.timestamp ≤ e2.timestamp) l →
      List.Pairwise
        (fun g1 g2 => (g1.headD default).timestamp ≤ (g2.headD default).timestamp)
        (partF bs f l) := by
  intro f
  induction f with
  | zero =>
    intro l _
    exact List.Pairwise.nil
  | succ f2 ih =>
    intro l hl
    cases l with
    | nil => exact List.Pairwise.nil
    | cons e es =>
      show List.Pairwise _ ((e :: es.take (bs - 1)) :: partF bs f2 (es.drop (bs - 1)))
      rw [List.pairwise_cons]
      constructor
      · intro g hg
        have hmem : g.headD default ∈ es.drop (bs - 1) := partF_head_mem bs f2 _ g hg
        have hmem2 : g.headD default ∈ es := List.drop_subset _ es hmem
        have hle := (List.pairwise_cons.mp hl).1 _ hmem2
        simpa using hle
      · apply ih
        exact List.Pairwise.sublist (List.drop_sublist _ _) (List.pairwise_cons.mp hl).2

/-! ### Chunk-record lemmas -/

theorem find_enumFrom_chunk (tid : Nat) (did sid : String) (ts gid n : Nat) :
    ∀ (P : List (List Nat)) (j i : Nat), j ≤ i → i < j + P.length →
      ((List.enumFrom j P).map
        (fun it => (⟨tid, did, sid, ts, gid, it.1, n, it.2⟩ : Chunk))).find?
          (fun c => decide (c.chunkIndex = i)) =
        some ⟨tid, did, sid, ts, gid, i, n, P.getD (i - j) []⟩ := by
  intro P
  induction P with
  | nil =>
    intro j i h1 h2
    simp at h2
    omega
  | cons t ts2 ih =>
    intro j i h1 h2
    rw [List.enumFrom_cons, List.map_cons]
    by_cases hij : i = j
    · rw [List.find?_cons_of_pos _ (by simp [hij])]
      rw [← hij]
      simp
    · rw [List.find?_cons_of_neg _ (by simp; omega)]
      have hrec := ih (j + 1) i (by omega) (by simp at h2 ⊢; omega)
      rw [hrec]
      have harith : i - j = (i - (j + 1)) + 1 := by omega
      rw [harith, List.getD_cons_succ]

theorem chunkAt_mkChunksOf (tid : Nat) (did sid : String) (ts gid n : Nat)
    (P : List (List Nat)) (i : Nat) (hi : i < P.length) :
    chunkAt (mkChunksOf tid did sid ts gid n P) i =
      some ⟨tid, did, sid, ts, gid, i, n, P.getD i []⟩ := by
  unfold chunkAt mkChunksOf
  have := find_enumFrom_chunk tid did sid ts gid n P 0 i (Nat.zero_le i) (by omega)
  simpa using this

theorem jpF_flatten (cs : List Chunk) :
    ∀ (P : List (List Nat)) (j : Nat),
      (∀ i, i < P.length → (chunkAt cs (j + i)).map Chunk.payload = some (P.getD i [])) →
      jpF cs j P.length = P.flatten := by
  intro P
  induction P with
  | nil =>
    intro j _
    rfl
  | cons t ts2 ih =>
    intro j h
    show ((chunkAt cs j).map Chunk.payload).getD [] ++ jpF cs (j + 1) ts2.length =
      (t :: ts2).flatten
    have h0 := h 0 (by simp)
    rw [Nat.add_zero] at h0
    rw [h0]
    rw [ih (j + 1) (fun i hi => by
      have := h (i + 1) (by simp; omega)
      rw [List.getD_cons_succ] at this
      rw [← this]
      have harith : j + 1 + i = j + (i + 1) := by omega
      rw [harith])]
    simp

theorem mkChunksOf_cons (tid : Nat) (did sid : String) (ts gid n : Nat)
    (t : List Nat) (ts2 : List (List Nat)) :
    mkChunksOf tid did sid ts gid n (t :: ts2) =
      (⟨tid, did, sid, ts, gid, 0, n, t⟩ : Chunk) ::
        (List.enumFrom 1 ts2).map
          (fun it => (⟨tid, did, sid, ts, gid, it.1, n, it.2⟩ : Chunk)) := by
  rfl

theorem completeB_mkChunksOf (tid : Nat) (did sid : String) (ts gid : Nat)
    (P : List (List Nat)) (hP : P ≠ []) :
    completeB (mkChunksOf tid did sid ts gid P.length P) = true := by
  cases P with
  | nil => exact absurd rfl hP
  | cons t ts2 =>
    rw [mkChunksOf_cons]
    unfold completeB
    rw [List.all_eq_true]
    intro i hi
    have hi2 : i < (t :: ts2).length := by
      have := List.mem_range.mp hi
      simpa using this
    rw [← mkChunksOf_cons]
    rw [chunkAt_mkChunksOf tid did sid ts gid _ _ i hi2]
    rfl

theorem decodeGroup_mkChunksOf (tid : Nat) (did sid : String) (ts gid : Nat)
    (P : List (List Nat)) (hP : P ≠ []) :
    decodeGroup (mkChunksOf tid did sid ts gid P.length P) =
      (Codec.decode P.flatten).getD [] := by
  cases P with
  | nil => exact absurd rfl hP
  | cons t ts2 =>
    have hjp : joinedPayload (mkChunksOf tid did sid ts gid (t :: ts2).length (t :: ts2))
        (t :: ts2).length = (t :: ts2).flatten := by
      unfold joinedPayload
      apply jpF_flatten
      intro i hi
      rw [Nat.zero_add]
      rw [chunkAt_mkChunksOf tid did sid ts gid _ _ i hi]
      rfl
    have hc := completeB_mkChunksOf tid did sid ts gid (t :: ts2) hP
    rw [mkChunksOf_cons] at hc hjp ⊢
    simp only [decodeGroup]
    rw [hc, if_pos rfl, hjp]

theorem repTs_mkChunksOf (tid : Nat) (did sid : String) (ts gid n : Nat)
    (P : List (List Nat)) (hP : P ≠ []) :
    repTs (mkChunksOf tid did sid ts gid n P) = ts := by
  cases P with
  | nil => exact absurd rfl hP
  | cons t ts2 =>
    rw [mkChunksOf_cons]
    rfl

theorem map_groupId_mkChunksOf (tid : Nat) (did sid : String) (ts gid n : Nat) :
    ∀ (P : List (List Nat)),
      (mkChunksOf tid did sid ts gid n P).map Chunk.groupId =
        List.replicate P.length gid := by
  intro P
  unfold mkChunksOf
  rw [List.map_map]
  have : ∀ (j : Nat),
      (List.enumFrom j P).map
        (Chunk.groupId ∘ fun it => (⟨tid, did, sid, ts, gid, it.1, n, it.2⟩ : Chunk)) =
      List.replicate P.length gid := by
    induction P with
    | nil => intro j; rfl
    | cons t ts2 ih =>
      intro j
      rw [List.enumFrom_cons, List.map_cons, ih (j + 1)]
      rfl
  exact this 0

/-- The encoded text of a batch is never empty (the frame alone has
three symbols). -/
theorem codec_encode_ne_nil (g : List SnapshotEvent) : Codec.encode g ≠ [] := by
  unfold Codec.encode frameEnc
  simp

theorem splitPieces_encode_ne_nil (mcp : Nat) (g : List SnapshotEvent) :
    splitPieces mcp (Codec.encode g) ≠ [] := by
  unfold splitPieces
  obtain ⟨p, rest, hp⟩ := splitF_cons mcp (Codec.encode g).length (Codec.encode g)
    (codec_encode_ne_nil g)
    (by
      have : Codec.encode g ≠ [] := codec_encode_ne_nil g
      cases hE : Codec.encode g with
      | nil => exact absurd hE this
      | cons a as => simp [hE])
  rw [hp]
  simp

theorem decodeGroup_mkChunks (gid mcp : Nat) (g : List SnapshotEvent) :
    decodeGroup (mkChunks gid mcp g) = g := by
  unfold mkChunks
  rw [decodeGroup_mkChunksOf _ _ _ _ _ _ (splitPieces_encode_ne_nil mcp g)]
  unfold splitPieces
  rw [splitF_flatten _ _ _ (Nat.le_refl _)]
  rw [codec_decode_encode]
  rfl

theorem repTs_mkChunks (gid mcp : Nat) (g : List SnapshotEvent) :
    repTs (mkChunks gid mcp g) = (g.headD default).timestamp := by
  unfold mkChunks
  exact repTs_mkChunksOf _ _ _ _ _ _ _ (splitPieces_encode_ne_nil mcp g)

theorem map_groupId_mkChunks (gid mcp : Nat) (g : List SnapshotEvent) :
    (mkChunks gid mcp g).map Chunk.groupId =
      List.replicate (splitPieces mcp (Codec.encode g)).length gid := by
  unfold mkChunks
  exact map_groupId_mkChunksOf _ _ _ _ _ _ _

/-! ### First-seen deduplication lemmas -/

theorem fsF_fuel :
    ∀ (f1 f2 : Nat) (l : List Nat), l.length ≤ f1 → l.length ≤ f2 →
      fsF f1 l = fsF f2 l := by
  intro f1
  induction f1 with
  | zero =>
    intro f2 l h1 _
    have hnil : l = [] := by
      cases l with
      | nil => rfl
      | cons x xs => simp at h1
    rw [hnil]
    cases f2 <;> rfl
  | succ f1x ih =>
    intro f2 l h1 h2
    cases l with
    | nil => cases f2 <;> rfl
    | cons x xs =>
      cases f2 with
      | zero => simp at h2
      | succ f2x =>
        show x :: fsF f1x (xs.filter (fun y => decide (y ≠ x))) =
          x :: fsF f2x (xs.filter (fun y => decide (y ≠ x)))
        have hf : (xs.filter (fun y => decide (y ≠ x))).length ≤ xs.length :=
          List.length_filter_le _ xs
        simp only [List.length_cons] at h1 h2
        rw [ih f2x _ (by omega) (by omega)]

theorem firstSeen_cons (x : Nat) (xs : List Nat) :
    firstSeen (x :: xs) = x :: firstSeen (xs.filter (fun y => decide (y ≠ x))) := by
  unfold firstSeen
  show x :: fsF xs.length (xs.filter (fun y => decide (y ≠ x))) = _
  rw [fsF_fuel xs.length (xs.filter (fun y => decide (y ≠ x))).length _
    (List.length_filter_le _ xs) (Nat.le_refl _)]

theorem mem_firstSeen :
    ∀ (n : Nat) (l : List Nat), l.length ≤ n → ∀ a, (a ∈ firstSeen l ↔ a ∈ l) := by
  intro n
  induction n with
  | zero =>
    intro l hl a
    have hnil : l = [] := by
      cases l with
      | nil => rfl
      | cons x xs => simp at hl
    rw [hnil]
    rfl
  | succ n2 ih =>
    intro l hl a
    cases l with
    | nil => rfl
    | cons x xs =>
      rw [firstSeen_cons, List.mem_cons, List.mem_cons]
      have hlen : (xs.filter (fun y => decide (y ≠ x))).length ≤ n2 := by
        have := List.length_filter_le (fun y => decide (y ≠ x)) xs
        simp only [List.length_cons] at hl
        omega
      rw [ih _ hlen a, List.mem_filter]
      by_cases hax : a = x
      · simp [hax]
      · simp [hax]

theorem firstSeen_nodup :
    ∀ (n : Nat) (l : List Nat), l.length ≤ n → (firstSeen l).Nodup := by
  intro n
  induction n with
  | zero =>
    intro l hl
    have hnil : l = [] := by
      cases l with
      | nil => rfl
      | cons x xs => simp at hl
    rw [hnil]
    exact List.nodup_nil
  | succ n2 ih =>
    intro l hl
    cases l with
    | nil => exact List.nodup_nil
    | cons x xs =>
      rw [firstSeen_cons]
      have hlen : (xs.filter (fun y => decide (y ≠ x))).length ≤ n2 := by
        have := List.length_filter_le (fun y => decide (y ≠ x)) xs
        simp only [List.length_cons] at hl
        omega
      rw [List.nodup_cons]
      constructor
      · intro hmem
        rw [mem_firstSeen n2 _ hlen] at hmem
        have := (List.mem_filter.mp hmem).2
        simp at this
      · exact ih _ hlen

theorem firstSeen_filter :
    ∀ (n : Nat) (l : List Nat), l.length ≤ n → ∀ (p : Nat → Bool),
      firstSeen (l.filter p) = (firstSeen l).filter p := by
  intro n
  induction n with
  | zero =>
    intro l hl p
    have hnil : l = [] := by
      cases l with
      | nil => rfl
      | cons x xs => simp at hl
    rw [hnil]
    rfl
  | succ n2 ih =>
    intro l hl p
    cases l with
    | nil => rfl
    | cons x xs =>
      simp only [List.length_cons] at hl
      have hlf : ∀ (q : Nat → Bool), (xs.filter q).length ≤ n2 := by
        intro q
        have := List.length_filter_le q xs
        omega
      by_cases hpx : p x = true
      · rw [List.filter_cons_of_pos hpx, firstSeen_cons, firstSeen_cons]
        rw [List.filter_cons_of_pos hpx]
        congr 1
        rw [List.filter_filter]
        rw [← ih _ (hlf _) p]
        rw [List.filter_filter]
        apply congrArg
        apply List.filter_congr
        intro y _
        rw [Bool.and_comm]
      · rw [List.filter_cons_of_neg hpx, firstSeen_cons]
        rw [List.filter_cons_of_neg hpx]
        rw [← ih _ (hlf _) p]
        rw [List.filter_filter]
        apply congrArg
        apply List.filter_congr
        intro y _
        by_cases hyx : y = x
        · rw [hyx]
          simp at hpx
          simp [hpx]
        · simp [hyx]

/-! ### Stable insertion sort lemmas -/

theorem insertB_nil {α : Type} (key : α → Nat) (a : α) :
    insertB key a [] = [a] := rfl

theorem insertB_cons {α : Type} (key : α → Nat) (a b : α) (l : List α) :
    insertB key a (b :: l) =
      if key a ≤ key b then a :: b :: l else b :: insertB key a l := rfl

theorem insertB_mem {α : Type} (key : α → Nat) (a : α) :
    ∀ (l : List α) (x : α), x ∈ insertB key a l ↔ x = a ∨ x ∈ l := by
  intro l
  induction l with
  | nil =>
    intro x
    rw [insertB_nil]
    simp
  | cons b l2 ih =>
    intro x
    rw [insertB_cons]
    by_cases h : key a ≤ key b
    · rw [if_pos h]
      simp [List.mem_cons]
    · rw [if_neg h]
      rw [List.mem_cons, ih x, List.mem_cons]
      tauto

theorem insertB_sorted {α : Type} (key : α → Nat) (a : α) :
    ∀ (l : List α), List.Pairwise (fun u v => key u ≤ key v) l →
      List.Pairwise (fun u v => key u ≤ key v) (insertB key a l) := by
  intro l
  induction l with
  | nil =>
    intro _
    rw [insertB_nil]
    simp
  | cons b l2 ih =>
    intro hl
    rw [List.pairwise_cons] at hl
    rw [insertB_cons]
    by_cases h : key a ≤ key b
    · rw [if_pos h]
      rw [List.pairwise_cons]
      constructor
      · intro y hy
        rcases List.mem_cons.mp hy with h1 | h2
        · rw [h1]
          exact h
        · exact Nat.le_trans h (hl.1 y h2)
      · rw [List.pairwise_cons]
        exact hl
    · rw [if_neg h]
      rw [List.pairwise_cons]
      constructor
      · intro y hy
        rcases (insertB_mem key a l2 y).mp hy with h1 | h2
        · rw [h1]
          omega
        · exact hl.1 y h2
      · exact ih hl.2

theorem sortIns_sorted {α : Type} (key : α → Nat) :
    ∀ (l : List α), List.Pairwise (fun u v => key u ≤ key v) (sortIns key l) := by
  intro l
  induction l with
  | nil => exact List.Pairwise.nil
  | cons a l2 ih => exact insertB_sorted key a _ ih

theorem sortIns_sorted_eq {α : Type} (key : α → Nat) :
    ∀ (l : List α), List.Pairwise (fun u v => key u ≤ key v) l →
      sortIns key l = l := by
  intro l
  induction l with
  | nil =>
    intro _
    rfl
  | cons a l2 ih =>
    intro hl
    rw [List.pairwise_cons] at hl
    show insertB key a (sortIns key l2) = a :: l2
    rw [ih hl.2]
    cases l2 with
    | nil => rfl
    | cons b l3 =>
      rw [insertB_cons]
      rw [if_pos (hl.1 b (List.mem_cons_self b l3))]

theorem insertB_filter_pos {α : Type} (key : α → Nat) (p : α → Bool) (a : α)
    (hpa : p a = true) :
    ∀ (m : List α), List.Pairwise (fun u v => key u ≤ key v) m →
      (insertB key a m).filter p = insertB key a (m.filter p) := by
  intro m
  induction m with
  | nil =>
    intro _
    simp [insertB_nil, hpa]
  | cons b m2 ih =>
    intro hm
    rw [List.pairwise_cons] at hm
    rw [insertB_cons]
    by_cases h : key a ≤ key b
    · rw [if_pos h]
      rw [List.filter_cons_of_pos hpa]
      by_cases hpb : p b = true
      · rw [List.filter_cons_of_pos hpb]
        rw [insertB_cons, if_pos h]
      · rw [List.filter_cons_of_neg hpb]
        cases hfm : m2.filter p with
        | nil =>
          rw [insertB_nil]
        | cons c m3 =>
          have hcm : c ∈ m2 := by
            have hcf : c ∈ m2.filter p := by
              rw [hfm]
              exact List.mem_cons_self c m3
            exact List.mem_of_mem_filter hcf
          rw [insertB_cons]
          rw [if_pos (Nat.le_trans h (hm.1 c hcm))]
    · rw [if_neg h]
      by_cases hpb : p b = true
      · rw [List.filter_cons_of_pos hpb, List.filter_cons_of_pos hpb]
        rw [insertB_cons, if_neg h]
        rw [ih hm.2]
      · rw [List.filter_cons_of_neg hpb, List.filter_cons_of_neg hpb]
        exact ih hm.2

theorem insertB_filter_neg {α : Type} (key : α → Nat) (p : α → Bool) (a : α)
    (hpa : ¬ p a = true) :
    ∀ (m : List α), (insertB key a m).filter p = m.filter p := by
  intro m
  induction m with
  | nil =>
    rw [insertB_nil]
    simp [hpa]
  | cons b m2 ih =>
    rw [insertB_cons]
    by_cases h : key a ≤ key b
    · rw [if_pos h]
      rw [List.filter_cons_of_neg hpa]
    · rw [if_neg h]
      by_cases hpb : p b = true
      · rw [List.filter_cons_of_pos hpb, List.filter_cons_of_pos hpb, ih]
      · rw [List.filter_cons_of_neg hpb, List.filter_cons_of_neg hpb, ih]

theorem sortIns_filter {α : Type} (key : α → Nat) (p : α → Bool) :
    ∀ (l : List α), (sortIns key l).filter p = sortIns key (l.filter p) := by
  intro l
  induction l with
  | nil => rfl
  | cons a l2 ih =>
    show (insertB key a (sortIns key l2)).filter p = sortIns key ((a :: l2).filter p)
    by_cases hpa : p a = true
    · rw [insertB_filter_pos key p a hpa _ (sortIns_sorted key l2)]
      rw [ih, List.filter_cons_of_pos hpa]
      rfl
    · rw [insertB_filter_neg key p a hpa]
      rw [ih, List.filter_cons_of_neg hpa]

/-! ### Structure of the chunk encoder's output -/

theorem mem_mkChunks_gid (gid mcp : Nat) (g : List SnapshotEvent) (c : Chunk)
    (hc : c ∈ mkChunks gid mcp g) : c.groupId = gid := by
  have hmem : c.groupId ∈ (mkChunks gid mcp g).map Chunk.groupId :=
    List.mem_map_of_mem Chunk.groupId hc
  rw [map_groupId_mkChunks] at hmem
  exact List.eq_of_mem_replicate hmem

theorem mkChunks_ne_nil (gid mcp : Nat) (g : List SnapshotEvent) :
    mkChunks gid mcp g ≠ [] := by
  unfold mkChunks
  cases hP : splitPieces mcp (Codec.encode g) with
  | nil => exact absurd hP (splitPieces_encode_ne_nil mcp g)
  | cons t ts2 =>
    rw [mkChunksOf_cons]
    simp

theorem gid_blocks_mem (gidBase mcp : Nat) :
    ∀ (P : List (List SnapshotEvent)) (j : Nat) (c : Chunk),
      c ∈ ((List.enumFrom j P).map
        (fun ig => mkChunks (gidBase + ig.1) mcp ig.2)).flatten →
      ∃ i, j ≤ i ∧ i < j + P.length ∧ c.groupId = gidBase + i := by
  intro P
  induction P with
  | nil =>
    intro j c hc
    cases hc
  | cons g P2 ih =>
    intro j c hc
    rw [List.enumFrom_cons, List.map_cons, List.flatten_cons] at hc
    rcases List.mem_append.mp hc with h1 | h2
    · exact ⟨j, Nat.le_refl j, by simp, mem_mkChunks_gid _ mcp g c h1⟩
    · obtain ⟨i, hi1, hi2, hi3⟩ := ih (j + 1) c h2
      exact ⟨i, by omega, by simp at hi2 ⊢; omega, hi3⟩

theorem firstSeen_gid_blocks (gidBase mcp : Nat) :
    ∀ (P : List (List SnapshotEvent)) (j : Nat),
      firstSeen ((((List.enumFrom j P).map
        (fun ig => mkChunks (gidBase + ig.1) mcp ig.2)).flatten).map Chunk.groupId) =
      (List.enumFrom j P).map (fun ig => gidBase + ig.1) := by
  intro P
  induction P with
  | nil =>
    intro j
    rfl
  | cons g P2 ih =>
    intro j
    rw [List.enumFrom_cons, List.map_cons, List.flatten_cons, List.map_append]
    rw [map_groupId_mkChunks]
    cases hK : (splitPieces mcp (Codec.encode g)).length with
    | zero =>
      exfalso
      have := splitPieces_encode_ne_nil mcp g
      cases hsp : splitPieces mcp (Codec.encode g) with
      | nil => exact this hsp
      | cons a as =>
        rw [hsp] at hK
        simp at hK
    | succ K2 =>
      rw [List.replicate_succ, List.cons_append, firstSeen_cons]
      rw [List.filter_append]
      have hrep : (List.replicate K2 (gidBase + j)).filter
          (fun y => decide (y ≠ gidBase + j)) = [] := by
        rw [List.filter_eq_nil_iff]
        intro a ha
        have := List.eq_of_mem_replicate ha
        simp [this]
      have hrest : ((((List.enumFrom (j + 1) P2).map
          (fun ig => mkChunks (gidBase + ig.1) mcp ig.2)).flatten).map Chunk.groupId).filter
          (fun y => decide (y ≠ gidBase + j)) =
          (((List.enumFrom (j + 1) P2).map
          (fun ig => mkChunks (gidBase + ig.1) mcp ig.2)).flatten).map Chunk.groupId := by
        rw [List.filter_eq_self]
        intro y hy
        obtain ⟨c, hc, hcy⟩ := List.mem_map.mp hy
        obtain ⟨i, hi1, _, hi3⟩ := gid_blocks_mem gidBase mcp P2 (j + 1) c hc
        rw [← hcy, hi3]
        simp
        omega
      rw [hrep, hrest, List.nil_append, ih (j + 1)]
      rfl

theorem filter_gid_blocks_lt (gidBase mcp : Nat) :
    ∀ (P : List (List SnapshotEvent)) (j i : Nat), i < j →
      (((List.enumFrom j P).map
        (fun ig => mkChunks (gidBase + ig.1) mcp ig.2)).flatten).filter
          (fun c => decide (c.groupId = gidBase + i)) = [] := by
  intro P j i hij
  rw [List.filter_eq_nil_iff]
  intro c hc
  obtain ⟨i2, hi1, _, hi3⟩ := gid_blocks_mem gidBase mcp P j c hc
  rw [hi3]
  simp
  omega

theorem filter_gid_blocks (gidBase mcp : Nat) :
    ∀ (P : List (List SnapshotEvent)) (j i : Nat), j ≤ i → i < j + P.length →
      (((List.enumFrom j P).map
        (fun ig => mkChunks (gidBase + ig.1) mcp ig.2)).flatten).filter
          (fun c => decide (c.groupId = gidBase + i)) =
      mkChunks (gidBase + i) mcp (P.getD (i - j) []) := by
  intro P
  induction P with
  | nil =>
    intro j i h1 h2
    simp at h2
    omega
  | cons g P2 ih =>
    intro j i h1 h2
    rw [List.enumFrom_cons, List.map_cons, List.flatten_cons, List.filter_append]
    by_cases hij : i = j
    · have hhead : (mkChunks (gidBase + j) mcp g).filter
          (fun c => decide (c.groupId = gidBase + i)) = mkChunks (gidBase + j) mcp g := by
        rw [List.filter_eq_self]
        intro c hc
        rw [mem_mkChunks_gid _ mcp g c hc]
        simp [hij]
      rw [hhead, filter_gid_blocks_lt gidBase mcp P2 (j + 1) i (by omega)]
      rw [List.append_nil, hij]
      simp
    · have hhead : (mkChunks (gidBase + j) mcp g).filter
          (fun c => decide (c.groupId = gidBase + i)) = [] := by
        rw [List.filter_eq_nil_iff]
        intro c hc
        rw [mem_mkChunks_gid _ mcp g c hc]
        simp
        omega
      rw [hhead, List.nil_append]
      rw [ih (j + 1) i (by omega) (by simp at h2 ⊢; omega)]
      have harith : i - j = (i - (j + 1)) + 1 := by omega
      rw [harith, List.getD_cons_succ]

theorem enumFrom_mem_spec :
    ∀ (P : List (List SnapshotEvent)) (j : Nat) (ig : Nat × List SnapshotEvent),
      ig ∈ List.enumFrom j P →
      j ≤ ig.1 ∧ ig.1 < j + P.length ∧ P.getD (ig.1 - j) [] = ig.2 := by
  intro P
  induction P with
  | nil =>
    intro j ig hig
    cases hig
  | cons g P2 ih =>
    intro j ig hig
    rw [List.enumFrom_cons] at hig
    rcases List.mem_cons.mp hig with h1 | h2
    · rw [h1]
      refine ⟨Nat.le_refl j, by simp, ?_⟩
      simp
    · obtain ⟨hi1, hi2, hi3⟩ := ih (j + 1) ig h2
      refine ⟨by omega, by simp at hi2 ⊢; omega, ?_⟩
      have harith : ig.1 - j = (ig.1 - (j + 1)) + 1 := by omega
      rw [harith, List.getD_cons_succ]
      exact hi3

theorem enum_eq_enumFrom {α : Type} (l : List α) : l.enum = List.enumFrom 0 l := rfl

theorem groupsOf_encode (gidBase bs mcp : Nat) (b : List SnapshotEvent) :
    groupsOf (ChunkEncoder.encode gidBase bs mcp b) =
      (partitionBatches bs b).enum.map
        (fun ig => mkChunks (gidBase + ig.1) mcp ig.2) := by
  unfold groupsOf ChunkEncoder.encode
  rw [enum_eq_enumFrom (partitionBatches bs b)]
  rw [firstSeen_gid_blocks gidBase mcp _ 0]
  rw [List.map_map]
  apply List.map_congr_left
  intro ig hig
  obtain ⟨h1, h2, h3⟩ := enumFrom_mem_spec _ 0 ig hig
  show (((List.enumFrom 0 (partitionBatches bs b)).map
    (fun ig => mkChunks (gidBase + ig.1) mcp ig.2)).flatten).filter
      (fun c => decide (c.groupId = gidBase + ig.1)) = _
  rw [filter_gid_blocks gidBase mcp _ 0 ig.1 (Nat.zero_le _) (by omega)]
  rw [Nat.sub_zero] at h3 ⊢
  rw [h3]

/-- Reassembling the chunk encoder's output of a timestamp-sorted batch
recovers the batch exactly. -/
theorem reassembler_encode (gidBase bs mcp : Nat) (b : List SnapshotEvent)
    (hsort : List.Pairwise (fun u v => u.timestamp ≤ v.timestamp) b) :
    Reassembler (ChunkEncoder.encode gidBase bs mcp b) = b := by
  unfold Reassembler
  rw [groupsOf_encode]
  have hp : List.Pairwise
      (fun ig jg => ((ig.2 : List SnapshotEvent).headD default).timestamp ≤
        ((jg.2 : List SnapshotEvent).headD default).timestamp)
      (partitionBatches bs b).enum := by
    have hP := partF_heads_pairwise bs b.length b hsort
    have hmapped : List.Pairwise
        (fun g1 g2 => (g1.headD default).timestamp ≤ (g2.headD default).timestamp)
        ((partitionBatches bs b).enum.map Prod.snd) := by
      rw [List.enum_map_snd]
      exact hP
    rw [List.pairwise_map] at hmapped
    exact hmapped
  have hpair : List.Pairwise (fun g1 g2 => repTs g1 ≤ repTs g2)
      ((partitionBatches bs b).enum.map
        (fun ig => mkChunks (gidBase + ig.1) mcp ig.2)) := by
    rw [List.pairwise_map]
    exact List.Pairwise.imp
      (fun {a b2} hab => by
        rw [repTs_mkChunks, repTs_mkChunks]
        exact hab) hp
  unfold sortGroups
  rw [sortIns_sorted_eq repTs _ hpair]
  rw [List.map_map]
  rw [List.map_congr_left
    (fun ig _ => decodeGroup_mkChunks (gidBase + ig.1) mcp ig.2)]
  rw [List.enum_map_snd, partitionBatches_flatten]

/-! ### Reassembler error-handling lemmas -/

theorem decodeGroup_not_complete (g : List Chunk) (h : ¬ completeB g = true) :
    decodeGroup g = [] := by
  cases g with
  | nil => rfl
  | cons c0 rest =>
    simp only [decodeGroup]
    rw [if_neg h]

theorem flatten_map_filter_complete :
    ∀ (L : List (List Chunk)),
      ((L.map decodeGroup).flatten) = (((L.filter completeB).map decodeGroup).flatten) := by
  intro L
  induction L with
  | nil => rfl
  | cons g L2 ih =>
    rw [List.map_cons, List.flatten_cons]
    by_cases hg : completeB g = true
    · rw [List.filter_cons_of_pos hg, List.map_cons, List.flatten_cons, ih]
    · rw [List.filter_cons_of_neg hg, decodeGroup_not_complete g hg, List.nil_append, ih]

/-- The reassembler's output is exactly the reassembly of the complete
groups: incomplete groups are omitted, every complete group of the
same input is still decoded. -/
theorem reassembler_complete_groups (cs : List Chunk) :
    Reassembler cs =
      ((sortGroups ((groupsOf cs).filter completeB)).map decodeGroup).flatten := by
  unfold Reassembler sortGroups
  rw [← sortIns_filter repTs completeB (groupsOf cs)]
  exact flatten_map_filter_complete _

/-! ### Query-engine pagination lemmas -/

theorem map_filter_comm (f : Chunk → Nat) (p : Nat → Bool) :
    ∀ (l : List Chunk), (l.filter (fun c => p (f c))).map f = (l.map f).filter p := by
  intro l
  induction l with
  | nil => rfl
  | cons c l2 ih =>
    by_cases hc : p (f c) = true
    · have h1 : List.filter (fun r => p (f r)) (c :: l2) =
          c :: List.filter (fun r => p (f r)) l2 := List.filter_cons_of_pos hc
      have h2 : List.filter p (f c :: List.map f l2) =
          f c :: List.filter p (List.map f l2) := List.filter_cons_of_pos hc
      rw [List.map_cons, h1, List.map_cons, h2, ih]
    · have h1 : List.filter (fun r => p (f r)) (c :: l2) =
          List.filter (fun r => p (f r)) l2 := List.filter_cons_of_neg hc
      have h2 : List.filter p (f c :: List.map f l2) =
          List.filter p (List.map f l2) := List.filter_cons_of_neg hc
      rw [List.map_cons, h1, h2, ih]

theorem nodup_filter_sublist :
    ∀ {s l : List Nat}, s.Sublist l → l.Nodup →
      l.filter (fun x => decide (x ∈ s)) = s := by
  intro s l h
  induction h with
  | slnil =>
    intro _
    rfl
  | @cons s2 l2 y h2 ih =>
    intro hnd
    rw [List.nodup_cons] at hnd
    have hyns : decide (y ∈ s2) = false := by
      simp only [decide_eq_false_iff_not]
      intro hys
      exact hnd.1 (List.Sublist.subset h2 hys)
    rw [List.filter_cons_of_neg (by rw [hyns]; simp)]
    exact ih hnd.2
  | @cons₂ s2 l2 y h2 ih =>
    intro hnd
    rw [List.nodup_cons] at hnd
    rw [List.filter_cons_of_pos (by simp)]
    have hcongr : ∀ z ∈ l2, (fun x => decide (x ∈ y :: s2)) z =
        (fun x => decide (x ∈ s2)) z := by
      intro z hz
      have hzy : z ≠ y := by
        intro hzy2
        exact hnd.1 (hzy2 ▸ hz)
      simp [List.mem_cons, hzy]
    rw [List.filter_congr hcongr, ih hnd.2]

theorem headD_mem {α : Type} [Inhabited α] (l : List α) (h : l ≠ []) :
    l.headD default ∈ l := by
  cases l with
  | nil => exact absurd rfl h
  | cons a l2 => exact List.mem_cons_self a l2

theorem repTs_monotone :
    ∀ (n : Nat) (rows : List Chunk), rows.length ≤ n →
      List.Pairwise (fun c1 c2 => c1.timestamp ≤ c2.timestamp) rows →
      List.Pairwise
        (fun g1 g2 =>
          repTs (rows.filter (fun c => decide (c.groupId = g1))) ≤
          repTs (rows.filter (fun c => decide (c.groupId = g2))))
        (firstSeen (rows.map Chunk.groupId)) := by
  intro n
  induction n with
  | zero =>
    intro rows hlen _
    have hnil : rows = [] := by
      cases rows with
      | nil => rfl
      | cons c r2 => simp at hlen
    rw [hnil]
    exact List.Pairwise.nil
  | succ n2 ih =>
    intro rows hlen hsort
    cases rows with
    | nil => exact List.Pairwise.nil
    | cons c rows2 =>
      rw [List.map_cons, firstSeen_cons]
      rw [show (rows2.map Chunk.groupId).filter (fun y => decide (y ≠ c.groupId)) =
          (rows2.filter (fun r => decide (r.groupId ≠ c.groupId))).map Chunk.groupId from
        (map_filter_comm Chunk.groupId _ rows2).symm]
      have hkey : ∀ g, g ∈ firstSeen ((rows2.filter
          (fun r => decide (r.groupId ≠ c.groupId))).map Chunk.groupId) →
          g ≠ c.groupId ∧
          (c :: rows2).filter (fun q => decide (q.groupId = g)) =
            (rows2.filter (fun r => decide (r.groupId ≠ c.groupId))).filter
              (fun q => decide (q.groupId = g)) ∧
          (rows2.filter (fun r => decide (r.groupId ≠ c.groupId))).filter
              (fun q => decide (q.groupId = g)) ≠ [] := by
        intro g hg
        have hg2 := (mem_firstSeen _ _ (Nat.le_refl _) g).mp hg
        obtain ⟨r, hr, hrg⟩ := List.mem_map.mp hg2
        have hrne : r.groupId ≠ c.groupId := by
          have := (List.mem_filter.mp hr).2
          simpa using this
        have hgne : g ≠ c.groupId := by
          rw [← hrg]
          exact hrne
        refine ⟨hgne, ?_, ?_⟩
        · rw [List.filter_cons_of_neg (by
            simp only [decide_eq_true_eq]
            intro h
            exact hgne h.symm)]
          rw [List.filter_filter]
          apply List.filter_congr
          intro q _
          by_cases hq : q.groupId = g
          · have hqc : q.groupId ≠ c.groupId := by
              rw [hq]
              exact hgne
            simp [hq, hqc, hgne]
          · simp [hq]
        · intro hempty
          have hrmem : r ∈ (rows2.filter
              (fun r => decide (r.groupId ≠ c.groupId))).filter
                (fun q => decide (q.groupId = g)) :=
            List.mem_filter.mpr ⟨hr, by simp [hrg]⟩
          rw [hempty] at hrmem
          cases hrmem
      rw [List.pairwise_cons]
      constructor
      · intro g2 hg2
        obtain ⟨hgne, hfeq, hne⟩ := hkey g2 hg2
        have hleft : (c :: rows2).filter (fun r => decide (r.groupId = c.groupId)) =
            c :: rows2.filter (fun r => decide (r.groupId = c.groupId)) :=
          List.filter_cons_of_pos (by simp)
        rw [hleft, hfeq]
        have hhead : ((rows2.filter (fun r => decide (r.groupId ≠ c.groupId))).filter
            (fun q => decide (q.groupId = g2))).headD default ∈ rows2 := by
          have h1 := headD_mem _ hne
          have h2 := List.mem_of_mem_filter h1
          exact List.mem_of_mem_filter h2
        show c.timestamp ≤ _
        exact (List.pairwise_cons.mp hsort).1 _ hhead
      · have hsort3 : List.Pairwise (fun c1 c2 => c1.timestamp ≤ c2.timestamp)
            (rows2.filter (fun r => decide (r.groupId ≠ c.groupId))) :=
          List.Pairwise.sublist (List.filter_sublist rows2)
            (List.pairwise_cons.mp hsort).2
        have hlen3 : (rows2.filter (fun r => decide (r.groupId ≠ c.groupId))).length ≤ n2 := by
          have h1 := List.length_filter_le (fun r => decide (r.groupId ≠ c.groupId)) rows2
          simp only [List.length_cons] at hlen
          omega
        have hIH := ih _ hlen3 hsort3
        apply List.Pairwise.imp_of_mem ?_ hIH
        intro g1 g2 hg1 hg2 hR
        rw [(hkey g1 hg1).2.1, (hkey g2 hg2).2.1]
        exact hR

theorem sessionRows_sorted (store : List Chunk) (tid : Nat) (sid : String) :
    List.Pairwise (fun c1 c2 => c1.timestamp ≤ c2.timestamp)
      (sessionRows store tid sid) :=
  sortIns_sorted Chunk.timestamp _

theorem sessionGids_nodup (store : List Chunk) (tid : Nat) (sid : String) :
    (sessionGids store tid sid).Nodup :=
  firstSeen_nodup _ _ (Nat.le_refl _)

theorem reassembler_filter_sel (store : List Chunk) (tid : Nat) (sid : String)
    (sel : List Nat) (hsub : sel.Sublist (sessionGids store tid sid)) :
    Reassembler ((sessionRows store tid sid).filter
      (fun c => decide (c.groupId ∈ sel))) =
    ((sel.map (fun g => (sessionRows store tid sid).filter
      (fun c => decide (c.groupId = g)))).map decodeGroup).flatten := by
  unfold Reassembler groupsOf
  rw [map_filter_comm Chunk.groupId (fun y => decide (y ∈ sel)) (sessionRows store tid sid)]
  rw [firstSeen_filter _ _ (Nat.le_refl _) (fun y => decide (y ∈ sel))]
  rw [show firstSeen ((sessionRows store tid sid).map Chunk.groupId) =
    sessionGids store tid sid from rfl]
  rw [nodup_filter_sublist hsub (sessionGids_nodup store tid sid)]
  have hgroups : sel.map (fun g => ((sessionRows store tid sid).filter
      (fun c => decide (c.groupId ∈ sel))).filter (fun c => decide (c.groupId = g))) =
      sel.map (fun g => (sessionRows store tid sid).filter
        (fun c => decide (c.groupId = g))) := by
    apply List.map_congr_left
    intro g hg
    rw [List.filter_filter]
    apply List.filter_congr
    intro c _
    by_cases hc : c.groupId = g
    · simp [hc, hg]
    · simp [hc]
  rw [hgroups]
  have hpair : List.Pairwise (fun g1 g2 => repTs g1 ≤ repTs g2)
      (sel.map (fun g => (sessionRows store tid sid).filter
        (fun c => decide (c.groupId = g)))) := by
    rw [List.pairwise_map]
    exact List.Pairwise.sublist hsub
      (repTs_monotone (sessionRows store tid sid).length _ (Nat.le_refl _)
        (sessionRows_sorted store tid sid))
  unfold sortGroups
  rw [sortIns_sorted_eq repTs _ hpair]

theorem pagedGids_sublist (store : List Chunk) (tid : Nat) (sid : String)
    (limit : Option Nat) (offset : Nat) :
    (pagedGids store tid sid limit offset).Sublist (sessionGids store tid sid) := by
  unfold pagedGids
  cases effLimit limit with
  | none => exact List.drop_sublist _ _
  | some l =>
    exact List.Sublist.trans (List.take_sublist _ _) (List.drop_sublist _ _)

theorem page_snapshots_sel (store : List Chunk) (tid : Nat) (sid : String)
    (limit : Option Nat) (offset : Nat) :
    (QueryEngine.page store tid sid limit offset).snapshots =
    ((((pagedGids store tid sid limit offset).map
      (fun g => (sessionRows store tid sid).filter
        (fun c => decide (c.groupId = g)))).map decodeGroup).flatten).map displayOf := by
  show (Reassembler ((sessionRows store tid sid).filter
    (fun c => decide (c.groupId ∈ pagedGids store tid sid limit offset)))).map displayOf = _
  rw [reassembler_filter_sel store tid sid _ (pagedGids_sublist store tid sid limit offset)]

theorem append_hom_flatten {β : Type} (F : List Nat → List β)
    (hF : ∀ a b, F (a ++ b) = F a ++ F b) :
    ∀ (S : List (List Nat)), ((S.map F).flatten) = F S.flatten := by
  intro S
  induction S with
  | nil =>
    have h0 : F [] = [] := by
      have := hF [] []
      simp at this
      cases hnil : F [] with
      | nil => rfl
      | cons a as =>
        rw [hnil] at this
        have hlen := congrArg List.length this
        simp at hlen
    simp [h0]
  | cons s S2 ih =>
    rw [List.map_cons, List.flatten_cons, List.flatten_cons, hF, ih]

theorem slices_concat :
    ∀ (n : Nat) (l : List Nat) (lim : Nat), 0 < lim → l.length ≤ n * lim →
      ((List.range n).map (fun k => (l.drop (k * lim)).take lim)).flatten = l := by
  intro n
  induction n with
  | zero =>
    intro l lim _ h
    simp at h
    rw [h]
    rfl
  | succ n2 ih =>
    intro l lim hlim hlen
    rw [List.range_succ_eq_map]
    rw [List.map_cons, List.flatten_cons]
    simp only [Nat.zero_mul, List.drop_zero]
    rw [List.map_map]
    rw [List.map_congr_left (fun k _ => by
      show (l.drop (Nat.succ k * lim)).take lim =
        ((l.drop lim).drop (k * lim)).take lim
      rw [List.drop_drop, Nat.succ_mul, Nat.add_comm (k * lim) lim])]
    rw [ih (l.drop lim) lim hlim (by
      rw [List.length_drop]
      have harith : (n2 + 1) * lim = n2 * lim + lim := by ring
      omega)]
    exact List.take_append_drop lim l

theorem length_le_pageCount_mul (store : List Chunk) (tid : Nat) (sid : String)
    (l : Nat) (hl : 0 < l) :
    (sessionGids store tid sid).length ≤ pageCount store tid sid l * l := by
  unfold pageCount
  have hdm := Nat.div_add_mod ((sessionGids store tid sid).length + l - 1) l
  have hmod : ((sessionGids store tid sid).length + l - 1) % l < l :=
    Nat.mod_lt _ hl
  rw [Nat.mul_comm]
  generalize hq : l * (((sessionGids store tid sid).length + l - 1) / l) = t at hdm ⊢
  omega

theorem effLimit_some (l : Nat) (hl : 0 < l) : effLimit (some l) = some l := by
  show (if l = 0 then none else some l) = some l
  rw [if_neg (by omega)]

theorem pagedGids_some (store : List Chunk) (tid : Nat) (sid : String)
    (l off : Nat) (hl : 0 < l) :
    pagedGids store tid sid (some l) off =
      ((sessionGids store tid sid).drop off).take l := by
  unfold pagedGids
  rw [effLimit_some l hl]

theorem pagedGids_none (store : List Chunk) (tid : Nat) (sid : String) :
    pagedGids store tid sid none 0 = sessionGids store tid sid := by
  unfold pagedGids
  show (sessionGids store tid sid).drop 0 = _
  exact List.drop_zero _

/-- Concatenating the pages read at offsets `0, l, 2l, …` recovers the
no-limit query exactly (static store, fixed positive limit). -/
theorem pages_concat (store : List Chunk) (tid : Nat) (sid : String)
    (l : Nat) (hl : 0 < l) :
    ((List.range (pageCount store tid sid l)).map
      (fun k => (QueryEngine.page store tid sid (some l) (k * l)).snapshots)).flatten =
    (QueryEngine.page store tid sid none 0).snapshots := by
  have H : ∀ (ks : List Nat),
      ((ks.map (fun k =>
        (QueryEngine.page store tid sid (some l) (k * l)).snapshots)).flatten) =
      (((((ks.map (fun k => ((sessionGids store tid sid).drop (k * l)).take l)).flatten).map
        (fun g => (sessionRows store tid sid).filter
          (fun c => decide (c.groupId = g)))).map decodeGroup).flatten).map displayOf := by
    intro ks
    induction ks with
    | nil => rfl
    | cons k ks2 ih =>
      simp only [List.map_cons, List.flatten_cons]
      rw [ih]
      rw [page_snapshots_sel store tid sid (some l) (k * l),
        pagedGids_some store tid sid l (k * l) hl]
      simp only [List.map_append, List.flatten_append]
  rw [H (List.range (pageCount store tid sid l))]
  rw [slices_concat _ _ l hl (length_le_pageCount_mul store tid sid l hl)]
  rw [page_snapshots_sel store tid sid none 0, pagedGids_none store tid sid]

theorem effLimit_pos {limit : Option Nat} {l : Nat}
    (h : effLimit limit = some l) : 0 < l := by
  cases limit with
  | none => cases h
  | some l0 =>
    by_cases h0 : l0 = 0
    · rw [show effLimit (some l0) = none from by
        show (if l0 = 0 then none else some l0) = none
        rw [if_pos h0]] at h
      cases h
    · rw [show effLimit (some l0) = some l0 from by
        show (if l0 = 0 then none else some l0) = some l0
        rw [if_neg h0]] at h
      cases h
      omega

/-- A session with no stored chunks yields the empty page and no
continuation, whatever the limit and offset. -/
theorem page_empty_session (store : List Chunk) (tid : Nat) (sid : String)
    (limit : Option Nat) (offset : Nat)
    (h : ∀ c ∈ store, ¬ (c.teamId = tid ∧ c.sessionId = sid)) :
    QueryEngine.page store tid sid limit offset = ⟨[], none⟩ := by
  have hfil : store.filter (fun c => decide (c.teamId = tid ∧ c.sessionId = sid)) = [] := by
    rw [List.filter_eq_nil_iff]
    intro c hc
    simp only [decide_eq_true_eq]
    exact h c hc
  have hrows : sessionRows store tid sid = [] := by
    unfold sessionRows
    rw [hfil]
    rfl
  have hgids : sessionGids store tid sid = [] := by
    unfold sessionGids
    rw [hrows]
    rfl
  have hpg : pagedGids store tid sid limit offset = [] := by
    unfold pagedGids
    rw [hgids]
    cases effLimit limit <;> simp
  have hread : readRows store tid sid limit offset = [] := by
    unfold readRows
    rw [hrows]
    rfl
  unfold QueryEngine.page
  rw [hread]
  have hnext : (match effLimit limit with
      | none => none
      | some l => if (pagedGids store tid sid limit offset).length = l then
          some (⟨offset + l, l⟩ : Continuation) else none) = (none : Option Continuation) := by
    cases hE : effLimit limit with
    | none => rfl
    | some l =>
      have hl : 0 < l := effLimit_pos hE
      show (if (pagedGids store tid sid limit offset).length = l then
        some (⟨offset + l, l⟩ : Continuation) else none) = none
      rw [hpg]
      rw [if_neg (by simp; omega)]
  rw [hnext]
  rfl

theorem page_next_spec (store : List Chunk) (tid : Nat) (sid : String)
    (l off : Nat) (hl : 0 < l) :
    ((QueryEngine.page store tid sid (some l) off).next =
        some ⟨off + l, l⟩ ↔
      (pagedGids store tid sid (some l) off).length = l) ∧
    ((pagedGids store tid sid (some l) off).length ≠ l →
      (QueryEngine.page store tid sid (some l) off).next = none) := by
  have hnext : (QueryEngine.page store tid sid (some l) off).next =
      (if (pagedGids store tid sid (some l) off).length = l then
        some (⟨off + l, l⟩ : Continuation) else none) := by
    show (match effLimit (some l) with
      | none => none
      | some l2 => if (pagedGids store tid sid (some l) off).length = l2 then
          some (⟨off + l2, l2⟩ : Continuation) else none) = _
    rw [effLimit_some l hl]
  constructor
  · rw [hnext]
    by_cases hc : (pagedGids store tid sid (some l) off).length = l
    · rw [if_pos hc]
      simp [hc]
    · rw [if_neg hc]
      simp [hc]
  · intro hc
    rw [hnext, if_neg hc]

/-! ### Per-group chunk invariants -/

theorem map_chunkIndex_mkChunksOf (tid : Nat) (did sid : String)
    (ts gid n : Nat) (P : List (List Nat)) :
    (mkChunksOf tid did sid ts gid n P).map Chunk.chunkIndex = List.range P.length := by
  unfold mkChunksOf
  rw [List.map_map]
  rw [show (Chunk.chunkIndex ∘ fun it : Nat × List Nat =>
    (⟨tid, did, sid, ts, gid, it.1, n, it.2⟩ : Chunk)) = Prod.fst from rfl]
  exact List.enum_map_fst P

theorem map_payload_mkChunksOf (tid : Nat) (did sid : String)
    (ts gid n : Nat) (P : List (List Nat)) :
    (mkChunksOf tid did sid ts gid n P).map Chunk.payload = P := by
  unfold mkChunksOf
  rw [List.map_map]
  rw [show (Chunk.payload ∘ fun it : Nat × List Nat =>
    (⟨tid, did, sid, ts, gid, it.1, n, it.2⟩ : Chunk)) = Prod.snd from rfl]
  exact List.enum_map_snd P

theorem length_mkChunksOf (tid : Nat) (did sid : String)
    (ts gid n : Nat) (P : List (List Nat)) :
    (mkChunksOf tid did sid ts gid n P).length = P.length := by
  unfold mkChunksOf
  rw [List.length_map, List.enum_length]

theorem mem_mkChunksOf_count (tid : Nat) (did sid : String)
    (ts gid n : Nat) (P : List (List Nat)) (c : Chunk)
    (hc : c ∈ mkChunksOf tid did sid ts gid n P) :
    c.chunkCount = n ∧ c.groupId = gid := by
  unfold mkChunksOf at hc
  obtain ⟨it, _, hit⟩ := List.mem_map.mp hc
  rw [← hit]
  exact ⟨rfl, rfl⟩

/-! ### Corruption detection by the container frame -/

theorem getD_append_ge (l1 l2 : List Nat) (i : Nat) (h : l1.length ≤ i) :
    (l1 ++ l2).getD i 0 = l2.getD (i - l1.length) 0 := by
  rw [List.getD_eq_getElem?_getD, List.getD_eq_getElem?_getD, List.getElem?_append]
  rw [if_neg (by omega)]

theorem getD_append_lt (l1 l2 : List Nat) (i : Nat) (h : i < l1.length) :
    (l1 ++ l2).getD i 0 = l1.getD i 0 := by
  rw [List.getD_eq_getElem?_getD, List.getD_eq_getElem?_getD, List.getElem?_append]
  rw [if_pos h]

theorem frameEnc_length (p : List Nat) : (frameEnc p).length = p.length + 3 := by
  unfold frameEnc
  simp

/-- A single flipped symbol always breaks the container frame. -/
theorem frameParse_set_ne (p : List Nat) (i v : Nat)
    (hi : i < (frameEnc p).length) (hv : v ≠ (frameEnc p).getD i 0) :
    frameParse ((frameEnc p).set i v) = none := by
  have hTlen : (p ++ [maxL p + 2, valBase (maxL p + 2) p]).length = p.length + 2 := by
    simp
  cases i with
  | zero =>
    have hset : (frameEnc p).set 0 v =
        v :: (p ++ [maxL p + 2, valBase (maxL p + 2) p]) := by
      unfold frameEnc
      rw [List.set_cons_zero]
    rw [hset]
    have hv0 : v ≠ p.length := by
      have h0 : (frameEnc p).getD 0 0 = p.length := rfl
      rw [h0] at hv
      exact hv
    show (if (p ++ [maxL p + 2, valBase (maxL p + 2) p]).length = v + 2 then _ else none) = none
    rw [if_neg (by rw [hTlen]; omega)]
  | succ j =>
    have hset : (frameEnc p).set (j + 1) v =
        p.length :: (p ++ [maxL p + 2, valBase (maxL p + 2) p]).set j v := by
      unfold frameEnc
      rw [List.set_cons_succ]
    rw [hset]
    have hjlen : j < p.length + 2 := by
      rw [frameEnc_length] at hi
      omega
    show (if ((p ++ [maxL p + 2, valBase (maxL p + 2) p]).set j v).length = p.length + 2
      then _ else none) = none
    rw [if_pos (by rw [List.length_set, hTlen])]
    have hvT : v ≠ (p ++ [maxL p + 2, valBase (maxL p + 2) p]).getD j 0 := by
      have heq : (frameEnc p).getD (j + 1) 0 =
          (p ++ [maxL p + 2, valBase (maxL p + 2) p]).getD j 0 := rfl
      rw [heq] at hv
      exact hv
    by_cases hjp : j < p.length
    · -- flip inside the compressed body: the checksum no longer matches
      have hsa : (p ++ [maxL p + 2, valBase (maxL p + 2) p]).set j v =
          p.set j v ++ [maxL p + 2, valBase (maxL p + 2) p] := by
        rw [List.set_append, if_pos hjp]
      rw [hsa]
      have hlen2 : (p.set j v).length = p.length := List.length_set p j v
      have htake : (p.set j v ++ [maxL p + 2, valBase (maxL p + 2) p]).take p.length =
          p.set j v := List.take_left' hlen2
      have hg1 : (p.set j v ++ [maxL p + 2, valBase (maxL p + 2) p]).getD p.length 0 =
          maxL p + 2 := by
        rw [getD_append_ge _ _ _ (by omega), hlen2]
        simp
      have hg2 : (p.set j v ++ [maxL p + 2, valBase (maxL p + 2) p]).getD (p.length + 1) 0 =
          valBase (maxL p + 2) p := by
        rw [getD_append_ge _ _ _ (by omega), hlen2]
        simp
      rw [htake, hg1, hg2]
      rw [if_neg ?_]
      intro hcond
      obtain ⟨hB, hH⟩ := hcond
      have hmaxeq : maxL (p.set j v) = maxL p := by omega
      have hbound1 : ∀ d ∈ p, d < maxL p + 2 := by
        intro d hd
        have := le_maxL hd
        omega
      have hbound2 : ∀ d ∈ p.set j v, d < maxL p + 2 := by
        intro d hd
        have := le_maxL hd
        rw [hmaxeq] at this
        omega
      rw [← hB] at hH
      have hpeq : p.set j v = p :=
        valBase_inj (by rw [hlen2]) hbound2 hbound1 hH.symm
      have hvj : (p.set j v).getD j 0 = v := by
        rw [List.getD_eq_getElem _ _ (by rw [hlen2]; omega)]
        exact List.getElem_set_self _
      rw [hpeq] at hvj
      have hvp : v ≠ p.getD j 0 := by
        rw [getD_append_lt _ _ _ hjp] at hvT
        exact hvT
      exact hvp hvj.symm
    · -- flip in the footer: base or checksum symbol no longer matches
      have hsa : (p ++ [maxL p + 2, valBase (maxL p + 2) p]).set j v =
          p ++ ([maxL p + 2, valBase (maxL p + 2) p].set (j - p.length) v) := by
        rw [List.set_append, if_neg hjp]
      rw [hsa]
      have hjcases : j = p.length ∨ j = p.length + 1 := by omega
      rcases hjcases with hj1 | hj2
      · have hone : [maxL p + 2, valBase (maxL p + 2) p].set (j - p.length) v =
            [v, valBase (maxL p + 2) p] := by
          rw [hj1, Nat.sub_self]
          rfl
        rw [hone]
        have htake : (p ++ [v, valBase (maxL p + 2) p]).take p.length = p :=
          List.take_left p _
        have hg1 : (p ++ [v, valBase (maxL p + 2) p]).getD p.length 0 = v := by
          rw [getD_append_ge _ _ _ (by omega), Nat.sub_self]
          rfl
        rw [htake, hg1]
        rw [if_neg ?_]
        intro hcond
        apply hvT
        rw [hj1, getD_append_ge _ _ _ (by omega), Nat.sub_self]
        exact hcond.1
      · have hone : [maxL p + 2, valBase (maxL p + 2) p].set (j - p.length) v =
            [maxL p + 2, v] := by
          rw [hj2]
          rw [show p.length + 1 - p.length = 1 from by omega]
          rfl
        rw [hone]
        have htake : (p ++ [maxL p + 2, v]).take p.length = p :=
          List.take_left p _
        have hg1 : (p ++ [maxL p + 2, v]).getD p.length 0 = maxL p + 2 := by
          rw [getD_append_ge _ _ _ (by omega), Nat.sub_self]
          rfl
        have hg2 : (p ++ [maxL p + 2, v]).getD (p.length + 1) 0 = v := by
          rw [getD_append_ge _ _ _ (by omega)]
          rw [show p.length + 1 - p.length = 1 from by omega]
          rfl
        rw [htake, hg1, hg2]
        rw [if_neg ?_]
        intro hcond
        apply hvT
        rw [hj2, getD_append_ge _ _ _ (by omega)]
        rw [show p.length + 1 - p.length = 1 from by omega]
        exact hcond.2

/-- Deleting a nonempty contiguous segment always breaks the container
frame (the stream came from `frameEnc` of a compressed body whose first
symbol, a run count, is positive). -/
theorem drop_append_ge (l1 l2 : List Nat) (n : Nat) (h : l1.length ≤ n) :
    (l1 ++ l2).drop n = l2.drop (n - l1.length) := by
  have h1 : ((l1 ++ l2).drop l1.length).drop (n - l1.length) = (l1 ++ l2).drop n := by
    rw [List.drop_drop]
    rw [show l1.length + (n - l1.length) = n from by omega]
  rw [← h1, List.drop_left]

theorem frameParse_del (p : List Nat) (hp : p = [] ∨ 0 < p.getD 0 0)
    (u v w1 : List Nat) (hw : frameEnc p = u ++ (v ++ w1)) (hv : v ≠ []) :
    frameParse (u ++ w1) = none := by
  have hvpos : 1 ≤ v.length := by
    cases v with
    | nil => exact absurd rfl hv
    | cons a as => simp
  cases u with
  | cons c u2 =>
    unfold frameEnc at hw
    rw [List.cons_append] at hw
    have hc : c = p.length := (List.cons.injEq _ _ _ _ |>.mp hw).1.symm
    have hT : p ++ [maxL p + 2, valBase (maxL p + 2) p] = u2 ++ (v ++ w1) :=
      (List.cons.injEq _ _ _ _ |>.mp hw).2
    have hlens : u2.length + (v.length + w1.length) = p.length + 2 := by
      have := congrArg List.length hT
      simp at this
      omega
    rw [List.cons_append]
    show (if (u2 ++ w1).length = c + 2 then _ else none) = none
    rw [if_neg (by rw [List.length_append, hc]; omega)]
  | nil =>
    rw [List.nil_append] at hw ⊢
    cases v with
    | nil => exact absurd rfl hv
    | cons c v2 =>
      unfold frameEnc at hw
      rw [List.cons_append] at hw
      have hc : c = p.length := (List.cons.injEq _ _ _ _ |>.mp hw).1.symm
      have hT : p ++ [maxL p + 2, valBase (maxL p + 2) p] = v2 ++ w1 :=
        (List.cons.injEq _ _ _ _ |>.mp hw).2
      have hw1 : (p ++ [maxL p + 2, valBase (maxL p + 2) p]).drop v2.length = w1 := by
        rw [hT]
        exact List.drop_left v2 w1
      have hlens : v2.length + w1.length = p.length + 2 := by
        have := congrArg List.length hT
        simp at this
        omega
      have hdropL : (p ++ [maxL p + 2, valBase (maxL p + 2) p]).drop p.length =
          [maxL p + 2, valBase (maxL p + 2) p] := List.drop_left p _
      have hb4 : v2.length ≤ p.length + 2 := by omega
      have hbcases : v2.length < p.length ∨ v2.length = p.length ∨
          v2.length = p.length + 1 ∨ v2.length = p.length + 2 := by omega
      rcases hbcases with hbL | hbL | hbL | hbL
      · -- the deletion ends inside the compressed body
        have hplen : 0 < p.length := by omega
        have hpne : p ≠ [] := by
          cases p with
          | nil => simp at hplen
          | cons q p2 => simp
        have hhead : 0 < p.getD 0 0 := by
          rcases hp with h1 | h2
          · exact absurd h1 hpne
          · exact h2
        have hdropT : (p ++ [maxL p + 2, valBase (maxL p + 2) p]).drop v2.length =
            p.drop v2.length ++ [maxL p + 2, valBase (maxL p + 2) p] :=
          List.drop_append_of_le_length (by omega)
        have hdropp : p.drop v2.length = p[v2.length] :: p.drop (v2.length + 1) :=
          List.drop_eq_getElem_cons hbL
        have hw1form : w1 = p[v2.length] ::
            (p.drop (v2.length + 1) ++ [maxL p + 2, valBase (maxL p + 2) p]) := by
          rw [← hw1, hdropT, hdropp, List.cons_append]
        rw [hw1form]
        show (if (p.drop (v2.length + 1) ++
            [maxL p + 2, valBase (maxL p + 2) p]).length = p[v2.length] + 2
          then _ else none) = none
        by_cases hx : (p.drop (v2.length + 1) ++
            [maxL p + 2, valBase (maxL p + 2) p]).length = p[v2.length] + 2
        · rw [if_pos hx]
          have hxval : p[v2.length] = p.length - v2.length - 1 := by
            rw [List.length_append, List.length_drop] at hx
            simp at hx
            omega
          have hdlen : (p.drop (v2.length + 1)).length = p[v2.length] := by
            rw [List.length_drop]
            omega
          have htake : (p.drop (v2.length + 1) ++
              [maxL p + 2, valBase (maxL p + 2) p]).take p[v2.length] =
              p.drop (v2.length + 1) := List.take_left' hdlen
          have hg1 : (p.drop (v2.length + 1) ++
              [maxL p + 2, valBase (maxL p + 2) p]).getD p[v2.length] 0 =
              maxL p + 2 := by
            rw [getD_append_ge _ _ _ (by omega), hdlen, Nat.sub_self]
            rfl
          have hg2 : (p.drop (v2.length + 1) ++
              [maxL p + 2, valBase (maxL p + 2) p]).getD (p[v2.length] + 1) 0 =
              valBase (maxL p + 2) p := by
            rw [getD_append_ge _ _ _ (by omega), hdlen]
            rw [show p[v2.length] + 1 - p[v2.length] = 1 from by omega]
            rfl
          rw [htake, hg1, hg2]
          rw [if_neg ?_]
          intro hcond
          obtain ⟨hB, hH⟩ := hcond
          rw [← hB] at hH
          -- split the checksum over the deleted region
          have hsplit := valBase_append (maxL p + 2) (p.take (v2.length + 1))
            (p.drop (v2.length + 1))
          rw [List.take_append_drop] at hsplit
          have htl : (p.take (v2.length + 1)).length = v2.length + 1 := by
            rw [List.length_take]
            omega
          rw [htl] at hsplit
          have hBge : 2 ≤ maxL p + 2 := by omega
          have hEge : 2 ≤ (maxL p + 2) ^ (v2.length + 1) := by
            have h1 : 1 ≤ (maxL p + 2) ^ v2.length :=
              Nat.pos_pow_of_pos v2.length (by omega)
            have h2 : (maxL p + 2) ^ (v2.length + 1) =
                (maxL p + 2) ^ v2.length * (maxL p + 2) := Nat.pow_succ _ _
            have h3 : 1 * 2 ≤ (maxL p + 2) ^ v2.length * (maxL p + 2) :=
              Nat.mul_le_mul h1 hBge
            omega
          have h2X : 2 * valBase (maxL p + 2) (p.drop (v2.length + 1)) ≤
              (maxL p + 2) ^ (v2.length + 1) *
                valBase (maxL p + 2) (p.drop (v2.length + 1)) :=
            Nat.mul_le_mul hEge (Nat.le_refl _)
          have hX0 : valBase (maxL p + 2) (p.take (v2.length + 1)) = 0 := by
            rw [hH] at hsplit
            generalize hY : (maxL p + 2) ^ (v2.length + 1) *
              valBase (maxL p + 2) (p.drop (v2.length + 1)) = Y at hsplit h2X
            omega
          have hzero := valBase_eq_zero (by omega) hX0
          have hmem : p.getD 0 0 ∈ p.take (v2.length + 1) := by
            cases hpc : p with
            | nil => exact absurd hpc hpne
            | cons q p2 =>
              show (q :: p2).getD 0 0 ∈ (q :: p2).take (v2.length + 1)
              rw [List.getD_cons_zero]
              rw [show v2.length + 1 = v2.length + 1 from rfl]
              show q ∈ q :: p2.take v2.length
              exact List.mem_cons_self q _
          have := hzero _ hmem
          omega
        · rw [if_neg hx]
      · -- the deletion ends exactly at the footer: length symbol check fails
        have hw1form : w1 = [maxL p + 2, valBase (maxL p + 2) p] := by
          rw [← hw1, hbL, hdropL]
        rw [hw1form]
        simp only [frameParse]
        rw [if_neg (by simp only [List.length_cons, List.length_nil]; omega)]
      · -- only the checksum symbol remains
        have hw1form : w1 = [valBase (maxL p + 2) p] := by
          rw [← hw1, hbL]
          rw [drop_append_ge _ _ _ (by omega)]
          rw [show p.length + 1 - p.length = 1 from by omega]
          rfl
        rw [hw1form]
        simp only [frameParse]
        rw [if_neg (by simp only [List.length_nil]; omega)]
      · -- everything after the header was deleted
        have hw1form : w1 = [] := by
          rw [← hw1, hbL]
          rw [drop_append_ge _ _ _ (by omega)]
          rw [show p.length + 2 - p.length = 2 from by omega]
          rfl
        rw [hw1form]
        rfl

theorem flatten_set_form :
    ∀ (P : List (List Nat)) (j : Nat) (t' : List Nat), j < P.length →
      (P.set j t').flatten =
        (P.take j).flatten ++ (t' ++ (P.drop (j + 1)).flatten) := by
  intro P
  induction P with
  | nil =>
    intro j t' hj
    simp at hj
  | cons q P2 ih =>
    intro j t' hj
    cases j with
    | zero =>
      rw [List.set_cons_zero]
      simp
    | succ j2 =>
      rw [List.set_cons_succ]
      rw [List.flatten_cons]
      rw [ih j2 t' (by simp at hj; omega)]
      show _ = ((q :: P2.take j2).flatten) ++ _
      rw [List.flatten_cons, List.append_assoc]
      rfl

theorem flatten_getD_form :
    ∀ (P : List (List Nat)) (j : Nat), j < P.length →
      P.flatten =
        (P.take j).flatten ++ (P.getD j [] ++ (P.drop (j + 1)).flatten) := by
  intro P
  induction P with
  | nil =>
    intro j hj
    simp at hj
  | cons q P2 ih =>
    intro j hj
    cases j with
    | zero =>
      simp
    | succ j2 =>
      rw [List.flatten_cons]
      rw [ih j2 (by simp at hj; omega)]
      show _ = ((q :: P2.take j2).flatten) ++ _
      rw [List.flatten_cons, List.append_assoc]
      rfl

theorem set_append_inner (A t C : List Nat) (q v : Nat) (hq : q < t.length) :
    (A ++ (t ++ C)).set (A.length + q) v = A ++ (t.set q v ++ C) := by
  rw [List.set_append, if_neg (by omega)]
  rw [show A.length + q - A.length = q from by omega]
  rw [List.set_append, if_pos hq]

theorem getD_append_inner (A t C : List Nat) (q : Nat) (hq : q < t.length) :
    (A ++ (t ++ C)).getD (A.length + q) 0 = t.getD q 0 := by
  rw [getD_append_ge _ _ _ (by omega)]
  rw [show A.length + q - A.length = q from by omega]
  rw [getD_append_lt _ _ _ hq]

/-- Corrupting one piece of a framed stream (truncation or single
flip) always makes the reassembled text unparseable. -/
theorem frameParse_pieces_corrupt (p : List Nat) (hp : p = [] ∨ 0 < p.getD 0 0)
    (P : List (List Nat)) (hP : P.flatten = frameEnc p) (j : Nat) (hj : j < P.length)
    (t' : List Nat)
    (hcor : TruncatedFrom (P.getD j []) t' ∨ FlippedFrom (P.getD j []) t') :
    frameParse ((P.set j t').flatten) = none := by
  rcases hcor with ⟨k, hk, ht'⟩ | ⟨q, v, hq, hv, ht'⟩
  · -- truncation of piece j
    rw [flatten_set_form _ _ _ hj, ht']
    have hfe : frameEnc p =
        ((P.take j).flatten ++ (P.getD j []).take k) ++
          ((P.getD j []).drop k ++ (P.drop (j + 1)).flatten) := by
      rw [← hP, flatten_getD_form _ _ hj]
      conv_lhs => rw [← List.take_append_drop k (P.getD j [])]
      simp only [List.append_assoc]
    have hdel := frameParse_del p hp
      ((P.take j).flatten ++ (P.getD j []).take k)
      ((P.getD j []).drop k)
      ((P.drop (j + 1)).flatten)
      hfe
      (by
        intro hnil
        have hlen := congrArg List.length hnil
        rw [List.length_drop, List.length_nil] at hlen
        omega)
    rw [show (P.take j).flatten ++ ((P.getD j []).take k ++ (P.drop (j + 1)).flatten) =
      ((P.take j).flatten ++ (P.getD j []).take k) ++ (P.drop (j + 1)).flatten from by
        rw [List.append_assoc]]
    exact hdel
  · -- single flip in piece j
    rw [flatten_set_form _ _ _ hj, ht']
    have hwform : frameEnc p =
        (P.take j).flatten ++ (P.getD j [] ++ (P.drop (j + 1)).flatten) := by
      rw [← hP, flatten_getD_form _ _ hj]
    have hseteq : (P.take j).flatten ++
        ((P.getD j []).set q v ++ (P.drop (j + 1)).flatten) =
        (frameEnc p).set ((P.take j).flatten.length + q) v := by
      rw [hwform, set_append_inner _ _ _ _ _ hq]
    rw [hseteq]
    apply frameParse_set_ne
    · rw [hwform]
      rw [List.length_append, List.length_append]
      omega
    · rw [hwform, getD_append_inner _ _ _ _ hq]
      exact hv

theorem decodeGroup_corrupt (tid : Nat) (did sid : String) (ts gid : Nat)
    (g : List SnapshotEvent) (mcp j : Nat)
    (hj : j < (splitPieces mcp (Codec.encode g)).length)
    (t' : List Nat)
    (hcor : TruncatedFrom ((splitPieces mcp (Codec.encode g)).getD j []) t' ∨
            FlippedFrom ((splitPieces mcp (Codec.encode g)).getD j []) t') :
    decodeGroup (mkChunksOf tid did sid ts gid
      (splitPieces mcp (Codec.encode g)).length
      ((splitPieces mcp (Codec.encode g)).set j t')) = [] := by
  have hlen : ((splitPieces mcp (Codec.encode g)).set j t').length =
      (splitPieces mcp (Codec.encode g)).length := List.length_set _ _ _
  have hne : (splitPieces mcp (Codec.encode g)).set j t' ≠ [] := by
    intro h0
    have hl0 := congrArg List.length h0
    rw [hlen, List.length_nil] at hl0
    omega
  have hp : rleEncode (serializeBatch g) = [] ∨
      0 < (rleEncode (serializeBatch g)).getD 0 0 := by
    rcases rleEncode_head (serializeBatch g) with h1 | ⟨d, r, hdr, hd⟩
    · left
      rw [h1]
      rfl
    · right
      rw [hdr, List.getD_cons_zero]
      omega
  have hP : (splitPieces mcp (Codec.encode g)).flatten =
      frameEnc (rleEncode (serializeBatch g)) := by
    unfold splitPieces
    rw [splitF_flatten _ _ _ (Nat.le_refl _)]
    rfl
  have hfp := frameParse_pieces_corrupt (rleEncode (serializeBatch g)) hp
    (splitPieces mcp (Codec.encode g)) hP j hj t' hcor
  rw [← hlen]
  rw [decodeGroup_mkChunksOf tid did sid ts gid _ hne]
  unfold Codec.decode
  rw [hfp]
  rfl

theorem corrupt_preserves_gid (G j : Nat) (t' : List Nat) (c : Chunk) :
    ((if c.groupId = G ∧ c.chunkIndex = j then
      { c with payload := t' } else c) : Chunk).groupId = c.groupId := by
  by_cases h : c.groupId = G ∧ c.chunkIndex = j
  · rw [if_pos h]
  · rw [if_neg h]

theorem map_gid_corruptAt (G j : Nat) (t' : List Nat) (cs : List Chunk) :
    (corruptAt G j t' cs).map Chunk.groupId = cs.map Chunk.groupId := by
  unfold corruptAt
  rw [List.map_map]
  apply List.map_congr_left
  intro c _
  exact corrupt_preserves_gid G j t' c

theorem filter_gid_corruptAt (G j : Nat) (t' : List Nat) (g : Nat) :
    ∀ (cs : List Chunk),
      (corruptAt G j t' cs).filter (fun c => decide (c.groupId = g)) =
        corruptAt G j t' (cs.filter (fun c => decide (c.groupId = g))) := by
  intro cs
  induction cs with
  | nil => rfl
  | cons c cs2 ih =>
    unfold corruptAt at ih ⊢
    rw [List.map_cons]
    by_cases hc : c.groupId = g
    · have hc2 : ((if c.groupId = G ∧ c.chunkIndex = j then
          { c with payload := t' } else c) : Chunk).groupId = g := by
        rw [corrupt_preserves_gid]
        exact hc
      rw [List.filter_cons_of_pos (by simp [hc2])]
      rw [List.filter_cons_of_pos (by simp [hc])]
      rw [List.map_cons, ih]
    · have hc2 : ¬ ((if c.groupId = G ∧ c.chunkIndex = j then
          { c with payload := t' } else c) : Chunk).groupId = g := by
        rw [corrupt_preserves_gid]
        exact hc
      rw [List.filter_cons_of_neg (by simp [hc2])]
      rw [List.filter_cons_of_neg (by simp [hc])]
      exact ih

theorem corruptAt_mkChunks_other (G j : Nat) (t' : List Nat)
    (gid mcp : Nat) (g : List SnapshotEvent) (hne : gid ≠ G) :
    corruptAt G j t' (mkChunks gid mcp g) = mkChunks gid mcp g := by
  unfold corruptAt
  have hmap : (mkChunks gid mcp g).map (fun c =>
      if c.groupId = G ∧ c.chunkIndex = j then { c with payload := t' } else c) =
      (mkChunks gid mcp g).map id := by
    apply List.map_congr_left
    intro c hc
    have hcg := mem_mkChunks_gid gid mcp g c hc
    rw [if_neg (by
      intro hand
      apply hne
      rw [← hcg]
      exact hand.1)]
    rfl
  rw [hmap, List.map_id]

theorem corruptAt_mkChunks_self (G j : Nat) (t' : List Nat)
    (mcp : Nat) (g : List SnapshotEvent) :
    corruptAt G j t' (mkChunks G mcp g) =
      mkChunksOf (g.headD default).teamId (g.headD default).distinctId
        (g.headD default).sessionId (g.headD default).timestamp G
        (splitPieces mcp (Codec.encode g)).length
        ((splitPieces mcp (Codec.encode g)).set j t') := by
  unfold corruptAt mkChunks mkChunksOf
  apply List.ext_getElem
  · simp [List.enum_length, List.length_set]
  · intro k h1 h2
    have hkP : k < (splitPieces mcp (Codec.encode g)).length := by
      simp only [List.length_map, List.enum_length, List.length_set] at h2
      exact h2
    have hkP2 : k < ((splitPieces mcp (Codec.encode g)).set j t').length := by
      rw [List.length_set]
      exact hkP
    simp only [List.getElem_map, List.getElem_enum]
    rw [List.getElem_set]
    by_cases hk : j = k
    · rw [if_pos hk]
      rw [if_pos (by constructor <;> simp [hk])]
    · rw [if_neg hk]
      rw [if_neg (by
        intro hand
        exact hk hand.2.symm)]

theorem flatten_enum_if :
    ∀ (Q : List (List SnapshotEvent)) (j i0 : Nat),
      ((List.enumFrom j Q).map
        (fun ig => if ig.1 = i0 then ([] : List SnapshotEvent) else ig.2)).flatten =
      (if j ≤ i0 then (Q.eraseIdx (i0 - j)).flatten else Q.flatten) := by
  intro Q
  induction Q with
  | nil =>
    intro j i0
    cases Nat.decLe j i0 <;> simp [List.eraseIdx]
  | cons q Q2 ih =>
    intro j i0
    rw [List.enumFrom_cons, List.map_cons, List.flatten_cons, ih (j + 1) i0]
    by_cases hj : j = i0
    · rw [if_pos (by simp [hj])]
      rw [if_neg (by omega)]
      rw [hj, Nat.sub_self, List.eraseIdx_cons_zero]
      simp
    · rw [if_neg (by simp [hj])]
      by_cases hlt : j < i0
      · rw [if_pos (by omega), if_pos (by omega)]
        rw [show i0 - j = (i0 - (j + 1)) + 1 from by omega]
        rw [List.eraseIdx_cons_succ, List.flatten_cons]
      · rw [if_neg (by omega), if_neg (by omega)]
        rfl

/-- Reading a stored page in which one chunk of group `i0` was
truncated or had one symbol flipped drops exactly that group: every
other group reconstructs to its original events. -/
theorem reassembler_encode_corrupt (gidBase bs mcp : Nat) (b : List SnapshotEvent)
    (hsort : List.Pairwise (fun u v => u.timestamp ≤ v.timestamp) b)
    (i0 j : Nat) (hi0 : i0 < (partitionBatches bs b).length)
    (t' : List Nat)
    (hj : j < (splitPieces mcp (Codec.encode
      ((partitionBatches bs b).getD i0 []))).length)
    (hcor : TruncatedFrom ((splitPieces mcp (Codec.encode
        ((partitionBatches bs b).getD i0 []))).getD j []) t' ∨
      FlippedFrom ((splitPieces mcp (Codec.encode
        ((partitionBatches bs b).getD i0 []))).getD j []) t') :
    Reassembler (corruptAt (gidBase + i0) j t'
      (ChunkEncoder.encode gidBase bs mcp b)) =
      ((partitionBatches bs b).eraseIdx i0).flatten := by
  have hsetne : ∀ (g : List SnapshotEvent),
      (splitPieces mcp (Codec.encode g)).set j t' ≠ [] := by
    intro g h0
    have hl := congrArg List.length h0
    rw [List.length_set, List.length_nil] at hl
    have hnn := splitPieces_encode_ne_nil mcp g
    cases hsp : splitPieces mcp (Codec.encode g) with
    | nil => exact hnn hsp
    | cons a as =>
      rw [hsp] at hl
      simp at hl
  unfold Reassembler groupsOf
  rw [map_gid_corruptAt]
  have hfs : firstSeen ((ChunkEncoder.encode gidBase bs mcp b).map Chunk.groupId) =
      (partitionBatches bs b).enum.map (fun ig => gidBase + ig.1) := by
    unfold ChunkEncoder.encode
    rw [enum_eq_enumFrom (partitionBatches bs b)]
    exact firstSeen_gid_blocks gidBase mcp _ 0
  rw [hfs]
  have hgeq : ((partitionBatches bs b).enum.map (fun ig => gidBase + ig.1)).map
      (fun g => (corruptAt (gidBase + i0) j t'
        (ChunkEncoder.encode gidBase bs mcp b)).filter
          (fun c => decide (c.groupId = g))) =
      (partitionBatches bs b).enum.map (fun ig =>
        if ig.1 = i0 then
          mkChunksOf (ig.2.headD default).teamId (ig.2.headD default).distinctId
            (ig.2.headD default).sessionId (ig.2.headD default).timestamp
            (gidBase + i0)
            (splitPieces mcp (Codec.encode ig.2)).length
            ((splitPieces mcp (Codec.encode ig.2)).set j t')
        else mkChunks (gidBase + ig.1) mcp ig.2) := by
    rw [List.map_map]
    apply List.map_congr_left
    intro ig hig
    obtain ⟨h1, h2, h3⟩ := enumFrom_mem_spec _ 0 ig
      (by rw [← enum_eq_enumFrom]; exact hig)
    rw [Nat.sub_zero] at h3
    show (corruptAt (gidBase + i0) j t'
      (ChunkEncoder.encode gidBase bs mcp b)).filter
        (fun c => decide (c.groupId = gidBase + ig.1)) = _
    rw [filter_gid_corruptAt]
    have hfilter : (ChunkEncoder.encode gidBase bs mcp b).filter
        (fun c => decide (c.groupId = gidBase + ig.1)) =
        mkChunks (gidBase + ig.1) mcp ig.2 := by
      unfold ChunkEncoder.encode
      rw [enum_eq_enumFrom (partitionBatches bs b)]
      rw [filter_gid_blocks gidBase mcp _ 0 ig.1 (Nat.zero_le _) (by omega)]
      rw [Nat.sub_zero, h3]
    rw [hfilter]
    by_cases hi : ig.1 = i0
    · rw [if_pos hi, hi]
      exact corruptAt_mkChunks_self (gidBase + i0) j t' mcp ig.2
    · rw [if_neg hi]
      exact corruptAt_mkChunks_other _ _ _ _ _ _ (by omega)
  rw [hgeq]
  have hp : List.Pairwise
      (fun ig jg => ((ig.2 : List SnapshotEvent).headD default).timestamp ≤
        ((jg.2 : List SnapshotEvent).headD default).timestamp)
      (partitionBatches bs b).enum := by
    have hP := partF_heads_pairwise bs b.length b hsort
    have hmapped : List.Pairwise
        (fun g1 g2 => (g1.headD default).timestamp ≤ (g2.headD default).timestamp)
        ((partitionBatches bs b).enum.map Prod.snd) := by
      rw [List.enum_map_snd]
      exact hP
    rw [List.pairwise_map] at hmapped
    exact hmapped
  have hpair : List.Pairwise (fun g1 g2 => repTs g1 ≤ repTs g2)
      ((partitionBatches bs b).enum.map (fun ig =>
        if ig.1 = i0 then
          mkChunksOf (ig.2.headD default).teamId (ig.2.headD default).distinctId
            (ig.2.headD default).sessionId (ig.2.headD default).timestamp
            (gidBase + i0)
            (splitPieces mcp (Codec.encode ig.2)).length
            ((splitPieces mcp (Codec.encode ig.2)).set j t')
        else mkChunks (gidBase + ig.1) mcp ig.2)) := by
    rw [List.pairwise_map]
    apply List.Pairwise.imp ?_ hp
    intro a b2 hab
    have hrepA : ∀ (ig : Nat × List SnapshotEvent),
        repTs (if ig.1 = i0 then
          mkChunksOf (ig.2.headD default).teamId (ig.2.headD default).distinctId
            (ig.2.headD default).sessionId (ig.2.headD default).timestamp
            (gidBase + i0)
            (splitPieces mcp (Codec.encode ig.2)).length
            ((splitPieces mcp (Codec.encode ig.2)).set j t')
        else mkChunks (gidBase + ig.1) mcp ig.2) =
        (ig.2.headD default).timestamp := by
      intro ig
      by_cases hi : ig.1 = i0
      · rw [if_pos hi]
        exact repTs_mkChunksOf _ _ _ _ _ _ _ (hsetne ig.2)
      · rw [if_neg hi]
        exact repTs_mkChunks _ _ _
    rw [hrepA a, hrepA b2]
    exact hab
  unfold sortGroups
  rw [sortIns_sorted_eq repTs _ hpair]
  have hdec : ((partitionBatches bs b).enum.map (fun ig =>
      if ig.1 = i0 then
        mkChunksOf (ig.2.headD default).teamId (ig.2.headD default).distinctId
          (ig.2.headD default).sessionId (ig.2.headD default).timestamp
          (gidBase + i0)
          (splitPieces mcp (Codec.encode ig.2)).length
          ((splitPieces mcp (Codec.encode ig.2)).set j t')
      else mkChunks (gidBase + ig.1) mcp ig.2)).map decodeGroup =
      (partitionBatches bs b).enum.map (fun ig =>
        if ig.1 = i0 then ([] : List SnapshotEvent) else ig.2) := by
    rw [List.map_map]
    apply List.map_congr_left
    intro ig hig
    obtain ⟨h1, h2, h3⟩ := enumFrom_mem_spec _ 0 ig
      (by rw [← enum_eq_enumFrom]; exact hig)
    rw [Nat.sub_zero] at h3
    by_cases hi : ig.1 = i0
    · have hgi : (partitionBatches bs b).getD i0 [] = ig.2 := by
        rw [← hi]
        exact h3
      rw [hgi] at hj hcor
      show decodeGroup (if ig.1 = i0 then _ else _) = _
      rw [if_pos hi, if_pos hi]
      exact decodeGroup_corrupt _ _ _ _ _ ig.2 mcp j hj t' hcor
    · show decodeGroup (if ig.1 = i0 then _ else _) = _
      rw [if_neg hi, if_neg hi]
      exact decodeGroup_mkChunks _ mcp ig.2
  rw [hdec]
  rw [enum_eq_enumFrom (partitionBatches bs b)]
  rw [flatten_enum_if _ 0 i0]
  rw [if_pos (Nat.zero_le i0), Nat.sub_zero]

/-! ### Claim theorems -/

/-- Claim C1, counterexample to the unconditional form: the batch
`[evU1, evU0]` is not in timestamp order, and reassembling its encoding
returns its events sorted by timestamp, not the original order. -/
theorem C1_counterexample :
    Reassembler (ChunkEncoder.encode 0 1 50 batchUnsorted) = [evU0, evU1] ∧
    Reassembler (ChunkEncoder.encode 0 1 50 batchUnsorted) ≠ batchUnsorted := by
  constructor
  · decide
  · decide

/-- Claim C1 (amended): `Codec.decode (Codec.encode b) = some b` for
every batch `b`; and for every timestamp-sorted batch `b` and all
configuration values `batch_size` and `max_chunk_payload`,
`Reassembler (ChunkEncoder.encode b) = b`, order and fields preserved
exactly. -/
theorem C1_roundtrip_sorted :
    (∀ b : List SnapshotEvent, Codec.decode (Codec.encode b) = some b) ∧
    (∀ (gidBase bs mcp : Nat) (b : List SnapshotEvent),
      List.Pairwise (fun u v => u.timestamp ≤ v.timestamp) b →
      Reassembler (ChunkEncoder.encode gidBase bs mcp b) = b) :=
  ⟨codec_decode_encode,
    fun gidBase bs mcp b hsort => reassembler_encode gidBase bs mcp b hsort⟩

/-- Claim C1 witness: the round trip at a concrete sorted two-event
batch. -/
theorem C1_roundtrip_sorted_witness :
    List.Pairwise (fun u v => u.timestamp ≤ v.timestamp)
      [evA 1600000000, evA 1600000010] ∧
    Reassembler (ChunkEncoder.encode 0 1 50 [evA 1600000000, evA 1600000010]) =
      [evA 1600000000, evA 1600000010] :=
  ⟨by decide, C1_roundtrip_sorted.2 0 1 50 _ (by decide)⟩

/-- Claim C2: with 11 two-event groups stored for session "7", a page
of `limit = 10` returns exactly 20 snapshots and the continuation
`offset = 10, limit = 10`; in general `next` encodes
`offset + limit, limit` iff a full page of groups was retrieved, and is
`none` otherwise. -/
theorem C2_pagination_limit :
    (QueryEngine.page storeC 1 str7 (some 10) 0).snapshots.length = 20 ∧
    (QueryEngine.page storeC 1 str7 (some 10) 0).next = some ⟨10, 10⟩ ∧
    ∀ (store : List Chunk) (tid : Nat) (sid : String) (l off : Nat),
      0 < l →
      (((QueryEngine.page store tid sid (some l) off).next =
          some ⟨off + l, l⟩ ↔
        (pagedGids store tid sid (some l) off).length = l) ∧
      ((pagedGids store tid sid (some l) off).length ≠ l →
        (QueryEngine.page store tid sid (some l) off).next = none)) :=
  ⟨by decide, by decide,
    fun store tid sid l off hl => page_next_spec store tid sid l off hl⟩

/-- Claim C2 witness: the general `next` characterisation instantiated
at the Scenario C store. -/
theorem C2_pagination_limit_witness :
    0 < 10 ∧
    (((QueryEngine.page storeC 1 str7 (some 10) 0).next =
        some ⟨10, 10⟩ ↔
      (pagedGids storeC 1 str7 (some 10) 0).length = 10) ∧
    ((pagedGids storeC 1 str7 (some 10) 0).length ≠ 10 →
      (QueryEngine.page storeC 1 str7 (some 10) 0).next = none)) :=
  ⟨by decide, C2_pagination_limit.2.2 storeC 1 str7 10 0 (by decide)⟩

/-- Claim C3: Scenario A — querying session "1" with no limit and no
offset returns the three session-"1" snapshots in ascending timestamp
order and `next = none`; the session-"2" event is excluded. -/
theorem C3_scenarioA :
    QueryEngine.page storeA 1 str1 none 0 =
      ⟨[⟨1600000000, 2⟩, ⟨1600000010, 2⟩, ⟨1600000030, 2⟩], none⟩ := by
  decide

/-- Claim C4: a session with zero stored groups yields exactly
`⟨[], none⟩`, whatever the limit and offset. -/
theorem C4_empty_session (store : List Chunk) (tid : Nat) (sid : String)
    (limit : Option Nat) (offset : Nat)
    (h : ∀ c ∈ store, ¬ (c.teamId = tid ∧ c.sessionId = sid)) :
    QueryEngine.page store tid sid limit offset = ⟨[], none⟩ :=
  page_empty_session store tid sid limit offset h

/-- Claim C4 witness: querying session "x" against a store holding only
session "1". -/
theorem C4_empty_session_witness :
    (∀ c ∈ storeD, ¬ (c.teamId = 1 ∧ c.sessionId = strX)) ∧
    QueryEngine.page storeD 1 strX (some 5) 0 = ⟨[], none⟩ :=
  ⟨by decide, C4_empty_session storeD 1 strX (some 5) 0 (by decide)⟩

/-- Claim C5: for one encode invocation's group, the chunk indices are
exactly `0, …, chunkCount − 1` in order, each chunk carries the group's
chunk count and group id, and concatenating the payloads in index
order, undoing the container frame, decompressing, and parsing recovers
the original serialized batch byte-identically and then the original
events. -/
theorem C5_chunk_invariants (gid mcp : Nat) (g : List SnapshotEvent) :
    (mkChunks gid mcp g).map Chunk.chunkIndex =
      List.range (mkChunks gid mcp g).length ∧
    (∀ c ∈ mkChunks gid mcp g,
      c.chunkCount = (mkChunks gid mcp g).length ∧ c.groupId = gid) ∧
    frameParse (((mkChunks gid mcp g).map Chunk.payload).flatten) =
      some (rleEncode (serializeBatch g)) ∧
    rleDecode (rleEncode (serializeBatch g)) = some (serializeBatch g) ∧
    parseEvents (serializeBatch g) = some g := by
  refine ⟨?_, ?_, ?_, rleDecode_rleEncode _, parseEvents_serializeBatch g⟩
  · unfold mkChunks
    rw [map_chunkIndex_mkChunksOf, length_mkChunksOf]
  · intro c hc
    unfold mkChunks at hc ⊢
    rw [length_mkChunksOf]
    exact mem_mkChunksOf_count _ _ _ _ _ _ _ c hc
  · unfold mkChunks
    rw [map_payload_mkChunksOf]
    unfold splitPieces
    rw [splitF_flatten _ _ _ (Nat.le_refl _)]
    exact frameParse_frameEnc _

/-- Claim C6: the reassembler returns exactly the reassembly of the
complete groups — every incomplete group is silently omitted while
every complete group of the same input is still decoded, and no error
is raised (the function is total). -/
theorem C6_incomplete_skipped (cs : List Chunk) :
    Reassembler cs =
      ((sortGroups ((groupsOf cs).filter completeB)).map decodeGroup).flatten :=
  reassembler_complete_groups cs

/-- Claim C7, counterexample to the unconditional form: flipping the
bytes of a stored chunk's payload into the equal-length valid encoding
of a different batch is not detected — the corrupted group is not
dropped and different events are returned. -/
theorem C7_counterexample :
    storeF.map Chunk.payload = [Codec.encode [evT2]] ∧
    (Codec.encode [evT3]).length = (Codec.encode [evT2]).length ∧
    Codec.encode [evT3] ≠ Codec.encode [evT2] ∧
    storeFcorrupt = corruptAt 0 0 (Codec.encode [evT3]) storeF ∧
    Reassembler storeF = [evT2] ∧
    Reassembler storeFcorrupt = [evT3] ∧
    evT3 ≠ evT2 :=
  ⟨by decide, by decide, by decide, rfl, by decide, by decide, by decide⟩

/-- Claim C7 (amended): truncating one stored chunk's payload, or
flipping a single symbol in it, drops exactly that chunk's group —
every other group of the page reconstructs to exactly its original
events, and no error propagates. -/
theorem C7_corruption_isolation (gidBase bs mcp : Nat)
    (b : List SnapshotEvent)
    (hsort : List.Pairwise (fun u v => u.timestamp ≤ v.timestamp) b)
    (i0 j : Nat) (hi0 : i0 < (partitionBatches bs b).length)
    (t' : List Nat)
    (hj : j < (splitPieces mcp (Codec.encode
      ((partitionBatches bs b).getD i0 []))).length)
    (hcor : TruncatedFrom ((splitPieces mcp (Codec.encode
        ((partitionBatches bs b).getD i0 []))).getD j []) t' ∨
      FlippedFrom ((splitPieces mcp (Codec.encode
        ((partitionBatches bs b).getD i0 []))).getD j []) t') :
    Reassembler (corruptAt (gidBase + i0) j t'
      (ChunkEncoder.encode gidBase bs mcp b)) =
      ((partitionBatches bs b).eraseIdx i0).flatten :=
  reassembler_encode_corrupt gidBase bs mcp b hsort i0 j hi0 t' hj hcor

/-- Claim C7 witness: truncating the first group's only chunk to the
empty payload in a two-group page leaves exactly the second group's
event. -/
theorem C7_corruption_isolation_witness :
    List.Pairwise (fun u v => u.timestamp ≤ v.timestamp)
      [evA 1600000000, evA 1600000010] ∧
    0 < (partitionBatches 1 [evA 1600000000, evA 1600000010]).length ∧
    0 < (splitPieces 50 (Codec.encode
      ((partitionBatches 1 [evA 1600000000, evA 1600000010]).getD 0 []))).length ∧
    TruncatedFrom ((splitPieces 50 (Codec.encode
      ((partitionBatches 1 [evA 1600000000, evA 1600000010]).getD 0 []))).getD 0 [])
      [] ∧
    Reassembler (corruptAt 0 0 []
      (ChunkEncoder.encode 0 1 50 [evA 1600000000, evA 1600000010])) =
      ((partitionBatches 1 [evA 1600000000, evA 1600000010]).eraseIdx 0).flatten :=
  ⟨by decide, by decide, by decide, ⟨0, by decide, by decide⟩,
    C7_corruption_isolation 0 1 50 _ (by decide) 0 0 (by decide) [] (by decide)
      (Or.inl ⟨0, by decide, by decide⟩)⟩

/-- Claim C8: for a static store and any positive limit, concatenating
the pages at offsets `0, limit, 2·limit, …` yields exactly the no-limit
query's snapshots — every group once, in timestamp order — and
repeating the same page read returns an identical result. -/
theorem C8_pagination_complete (store : List Chunk) (tid : Nat)
    (sid : String) (l : Nat) (hl : 0 < l) :
    ((List.range (pageCount store tid sid l)).map
      (fun k => (QueryEngine.page store tid sid (some l) (k * l)).snapshots)).flatten =
      (QueryEngine.page store tid sid none 0).snapshots ∧
    (∀ (limit : Option Nat) (off : Nat),
      QueryEngine.page store tid sid limit off =
        QueryEngine.page store tid sid limit off) :=
  ⟨pages_concat store tid sid l hl, fun _ _ => rfl⟩

/-- Claim C8 witness: three single-event groups paged two at a time. -/
theorem C8_pagination_complete_witness :
    0 < 2 ∧
    ((List.range (pageCount storeE 1 str1 2)).map
      (fun k => (QueryEngine.page storeE 1 str1 (some 2) (k * 2)).snapshots)).flatten =
      (QueryEngine.page storeE 1 str1 none 0).snapshots :=
  ⟨by decide, (C8_pagination_complete storeE 1 str1 2 (by decide)).1⟩

/-- Claim C9: `has_content` is true iff at least one of `content` and
`content_location` is set; only an asset with both `none` has
`has_content` false. -/
theorem C9_has_content_iff (a : ExportedAsset) :
    a.has_content = true ↔ (a.content ≠ none ∨ a.content_location ≠ none) := by
  unfold ExportedAsset.has_content
  cases a.content <;> cases a.content_location <;> simp

/-- Claim C10: for the supported formats the extension after the slash
is `png`, `pdf` or `csv` and `filename` always ends in a dot followed
by that extension; and with no context filename, no dashboard and no
insight, `filename` is exactly the default name followed by the dot
and the extension. -/
theorem C10_filename_spec (a : ExportedAsset) :
    ((a.export_format = strPng ∨ a.export_format = strPdf ∨
        a.export_format = strCsv) →
      (extOf strPng = strPngE ∧ extOf strPdf = strPdfE ∧
        extOf strCsv = strCsvE) ∧
      (strDot ++ extOf a.export_format).data <:+ a.filename.data) ∧
    ((ctxGet a.export_context strFilenameKey = none ∧ a.dashboard = none ∧
        a.insight = none) →
      a.filename = strExport ++ (strDot ++ extOf a.export_format)) := by
  constructor
  · intro _
    refine ⟨⟨by decide, by decide, by decide⟩, ?_⟩
    unfold ExportedAsset.filename
    rw [String.data_append]
    exact List.suffix_append _ _
  · intro hcond
    obtain ⟨hctx, hdash, hins⟩ := hcond
    unfold ExportedAsset.filename
    have h1 : pyTruthyStr (ctxGet a.export_context strFilenameKey) = false := by
      rw [hctx]
      rfl
    have h2 : dashNameSet a = false := by
      unfold dashNameSet
      rw [hdash]
    have h3 : a.insight.isSome = false := by
      rw [hins]
      rfl
    rw [h1, Bool.and_false, h2, h3]
    rfl

/-- Claim C10 witness: a CSV export with no context, dashboard or
insight is named by the default with the `csv` extension. -/
theorem C10_filename_spec_witness :
    (assetW.export_format = strPng ∨ assetW.export_format = strPdf ∨
      assetW.export_format = strCsv) ∧
    (strDot ++ extOf assetW.export_format).data <:+ assetW.filename.data ∧
    (ctxGet assetW.export_context strFilenameKey = none ∧
      assetW.dashboard = none ∧ assetW.insight = none) ∧
    assetW.filename = strExport ++ (strDot ++ extOf assetW.export_format) :=
  ⟨by decide, ((C10_filename_spec assetW).1 (by decide)).2,
    by decide, (C10_filename_spec assetW).2 (by decide)⟩
